import Mathlib

/-!
Verification development for the solwatch-v2 repository (Go).

The Go source is shallowly embedded over exact rationals:
* Go `float64` amounts are modelled as `ℚ` (exact arithmetic; the decimal
  rounding that `strconv.FormatFloat` performs on the binary value is
  modelled as exact decimal rounding with ties away from zero, the only
  place where the idealisation is visible at all being exact decimal
  midpoints, which are not representable as binary floats).
* Go `int64` lamport balances are modelled as `ℤ`.
* Go strings are modelled as `String`/`List Char` (the program only slices
  base58/ASCII data, where Go's byte indexing and character indexing agree).
  Go's partial slicing `s[i:j]` is modelled by an `Option`-valued slice, and
  functions that can panic return `Option`.
* Remote I/O (the enrichment HTTP fetch, the on-chain metadata RPC, the
  price HTTP fetch, the websocket stream) is modelled by passing the
  response data in as explicit oracle arguments; everything the Go code
  does with a response is translated from the source.
* `sync.Map`/`map` caches are modelled as functions `String → Option _`
  (`Store` = pointwise update, `Load` = application); Go map iteration
  order is not observable in any property proved here.
-/

namespace Solwatch

/-! ## Generic helpers: decimal digits, rounding, Go string slicing -/

/-- Decimal digit character: `0 ↦ '0'`, …, `9 ↦ '9'`. -/
def digitChar (d : ℕ) : Char := Char.ofNat (48 + d)

/-- Fuel-driven accumulator loop producing the decimal digits of `n` in front
of `acc`, most significant first.  The fuel only has to dominate the number
of digits; `natDigits` supplies `n + 1`. -/
def natDigitsAux : ℕ → ℕ → List Char → List Char
  | 0, _, acc => acc
  | fuel + 1, n, acc =>
    if n < 10 then digitChar n :: acc
    else natDigitsAux fuel (n / 10) (digitChar (n % 10) :: acc)

/-- Decimal digits of a natural number, most significant first (the digit
string Go's `strconv` produces for the integral part of a number). -/
def natDigits (n : ℕ) : List Char := natDigitsAux (n + 1) n []

/-- Reference version of `natDigits` by well-founded recursion; used only in
proofs. -/
def natDigitsSpec (n : ℕ) : List Char :=
  if n < 10 then [digitChar n]
  else natDigitsSpec (n / 10) ++ [digitChar (n % 10)]
termination_by n
decreasing_by exact Nat.div_lt_self (by omega) (by omega)

/-- Round a nonnegative rational to the nearest integer, ties away from zero:
the model of the decimal rounding inside `strconv.FormatFloat`. -/
def fround (q : ℚ) : ℤ := ⌊q + 1/2⌋

/-- Left-pad a character list with `c` up to length `k`. -/
def leftPad (c : Char) (k : ℕ) (l : List Char) : List Char :=
  List.replicate (k - l.length) c ++ l

/-- Drop trailing `'0'` characters (the trailing-zero removal of Go's
`'g'` verb). -/
def stripZerosRight (l : List Char) : List Char :=
  (l.reverse.dropWhile (· = '0')).reverse

/-- Go string slicing `s[i:j]`: defined exactly when `0 ≤ i ≤ j ≤ len s`,
otherwise the Go program panics (`none`). -/
def goSlice (s : String) (i j : ℤ) : Option String :=
  if 0 ≤ i ∧ i ≤ j ∧ j ≤ (s.toList.length : ℤ) then
    some (String.mk ((s.toList.drop i.toNat).take (j - i).toNat))
  else none

/-! ## Data model (internal/analyzer/structs.go) -/

/-- `TokenTransfer` of structs.go (the fields the program reads). -/
structure TokenTransfer where
  fromUserAccount : String
  toUserAccount : String
  mint : String
  tokenAmount : ℚ
deriving DecidableEq

/-- `NativeTransfer` of structs.go.  `amount` is in lamports. -/
structure NativeTransfer where
  fromUserAccount : String
  toUserAccount : String
  amount : ℤ
deriving DecidableEq

/-- `AccountData` of structs.go (the `tokenBalanceChanges` list is never read
by the analyzer and is omitted). -/
structure AccountData where
  account : String
  nativeBalanceChange : ℤ
deriving DecidableEq

/-- `RawTokenAmount` of structs.go: a decimal string plus a decimals count. -/
structure RawTokenAmount where
  tokenAmount : String
  decimals : ℤ
deriving DecidableEq

/-- `TokenSwapAmount` of structs.go. -/
structure TokenSwapAmount where
  userAccount : String
  rawTokenAmount : RawTokenAmount
  mint : String
deriving DecidableEq

/-- `SwapEvent` of structs.go. -/
structure SwapEvent where
  tokenInputs : List TokenSwapAmount
  tokenOutputs : List TokenSwapAmount
deriving DecidableEq

/-- `HeliusTransaction` of structs.go.  `transactionError` is the decoded
`*json.RawMessage` (`none` = JSON `null`/absent pointer); `events.swap` is the
optional swap event. -/
structure HeliusTransaction where
  signature : String
  timestamp : ℤ
  fee : ℤ
  feePayer : String
  type : String
  source : String
  description : String
  tokenTransfers : List TokenTransfer
  nativeTransfers : List NativeTransfer
  accountData : List AccountData
  transactionError : Option String
  eventsSwap : Option SwapEvent
deriving DecidableEq

/-- `TokenMetadata` of structs.go. -/
structure TokenMetadata where
  symbol : String
  decimals : ℤ
deriving DecidableEq

/-! ## Constants and small helpers (internal/analyzer/logic.go) -/

def usdcMint : String := "EPjFWdd5AufqSSqeM2qN1xzybapC8G4wEGGkZwyTDt1v"

def wsolMint : String := "So11111111111111111111111111111111111111112"

def filterThreshold : ℚ := 1/10000

def lamportsPerSol : ℚ := 1000000000

/-- `isPriceTracked` of logic.go: maps SOL/USDC mints to CoinGecko ids. -/
def isPriceTracked (mint : String) : String × Bool :=
  if mint = wsolMint then ("solana", true)
  else if mint = usdcMint then ("usd-coin", true)
  else ("", false)

/-- The first `accountData` entry for `trackedAddr` (the `for … break` loops
of `shouldFilter` and `calculateNetBalanceChanges`); `0` when absent. -/
def nativeChangeLamports (tx : HeliusTransaction) (trackedAddr : String) : ℤ :=
  ((tx.accountData.find? (fun ad => ad.account = trackedAddr)).map
    (fun ad => ad.nativeBalanceChange)).getD 0

/-- The failed-on-chain test opening `shouldFilter`:
`tx.TransactionError != nil && string(*tx.TransactionError) != "null"`. -/
def txFailedOnChain (tx : HeliusTransaction) : Bool :=
  match tx.transactionError with
  | some e => e != "null"
  | none => false

/-- `shouldFilter` of logic.go: ignore dust-only SOL moves when no other
token moved for the tracked address. -/
def shouldFilter (tx : HeliusTransaction) (trackedAddr : String) : Bool :=
  if txFailedOnChain tx then
    false
  else
    let nativeChange := nativeChangeLamports tx trackedAddr
    let solValueChange := |(nativeChange : ℚ) / lamportsPerSol|
    let hasOtherTokens := tx.tokenTransfers.any fun tt =>
      tt.mint != wsolMint && (tt.fromUserAccount == trackedAddr || tt.toUserAccount == trackedAddr)
    !hasOtherTokens && decide (solValueChange < filterThreshold)

/-! ## Net balance computation (logic.go, `calculateNetBalanceChanges`)

The Go function builds a `map[string]float64` of per-mint deltas; the map is
modelled as an association list in first-touch order (iteration order of a Go
map is arbitrary and no property below depends on it). -/

/-- Add `v` to the entry of `k` (a `tokenDeltas[k] += v` on a Go map whose
missing entries read as zero). -/
def bumpDelta (l : List (String × ℚ)) (k : String) (v : ℚ) : List (String × ℚ) :=
  match l with
  | [] => [(k, v)]
  | (k', v') :: t => if k' = k then (k', v' + v) :: t else (k', v') :: bumpDelta t k v

/-- Map read with zero default: `tokenDeltas[k]`. -/
def lookupDelta (l : List (String × ℚ)) (k : String) : ℚ :=
  ((l.find? (fun p => p.1 = k)).map (fun p => p.2)).getD 0

/-- `delete(tokenDeltas, k)`. -/
def eraseDelta (l : List (String × ℚ)) (k : String) : List (String × ℚ) :=
  l.filter (fun p => ¬ p.1 = k)

/-- Step 1 of `calculateNetBalanceChanges`: per-mint SPL deltas of the
tracked user, over the transfer list (both `if`s of the loop body applied in
order, as in the source). -/
def tokenDeltaStep (trackedAddr : String) (acc : List (String × ℚ))
    (tt : TokenTransfer) : List (String × ℚ) :=
  let acc1 := if tt.fromUserAccount = trackedAddr then bumpDelta acc tt.mint (-tt.tokenAmount) else acc
  if tt.toUserAccount = trackedAddr then bumpDelta acc1 tt.mint tt.tokenAmount else acc1

/-- The per-mint SPL deltas of the tracked user over the transfer list. -/
def tokenDeltas (tx : HeliusTransaction) (trackedAddr : String) : List (String × ℚ) :=
  tx.tokenTransfers.foldl (tokenDeltaStep trackedAddr) []

/-- Whether some transfer leg delivers WSOL to the tracked user from a
different user account (the `wsolInflowFromOther` flag of the source). -/
def wsolInflowFromOther (tx : HeliusTransaction) (trackedAddr : String) : Bool :=
  tx.tokenTransfers.any fun tt =>
    tt.toUserAccount = trackedAddr ∧ tt.mint = wsolMint ∧ tt.fromUserAccount ≠ trackedAddr

/-- Step 2: the native SOL net of the tracked user, in SOL. -/
def nativeSol (tx : HeliusTransaction) (trackedAddr : String) : ℚ :=
  (nativeChangeLamports tx trackedAddr : ℚ) / lamportsPerSol

/-- The net WSOL token delta (`tokenDeltas[wsolMint]` before deletion). -/
def wsolDelta (tx : HeliusTransaction) (trackedAddr : String) : ℚ :=
  lookupDelta (tokenDeltas tx trackedAddr) wsolMint

/-- The per-asset deltas that survive step 3 (WSOL removed). -/
def splDeltas (tx : HeliusTransaction) (trackedAddr : String) : List (String × ℚ) :=
  eraseDelta (tokenDeltas tx trackedAddr) wsolMint

/-- Steps 2–3: total SOL exposure: the native delta, plus the WSOL delta only
when it is a genuine inbound wrap (`wsolInflowFromOther` and the delta
exceeds the `1e-12` epsilon of the source). -/
def totalSolChange (tx : HeliusTransaction) (trackedAddr : String) : ℚ :=
  let t := nativeSol tx trackedAddr
  if wsolInflowFromOther tx trackedAddr ∧ wsolDelta tx trackedAddr > 1/1000000000000 then
    t + wsolDelta tx trackedAddr
  else t

/-! ## Number formatting (logic.go, `formatHumanReadable`)

`strconv.FormatFloat(f, 'f', prec, 64)` and `strconv.FormatFloat(f, 'g', 3, 64)`
are modelled over exact rationals (see the header note on rounding). -/

/-- `strconv.FormatFloat(q, 'f', prec, 64)` for `q ≥ 0`: the decimal digits
of `q` rounded to `prec` fractional digits, with a `'.'` before the last
`prec` digits when `prec > 0` (and at least one integral digit). -/
def formatFloatF (q : ℚ) (prec : ℕ) : List Char :=
  let ds := natDigits (fround (q * 10 ^ prec)).toNat
  if prec = 0 then ds
  else
    let padded := leftPad '0' (prec + 1) ds
    padded.take (padded.length - prec) ++ '.' :: padded.drop (padded.length - prec)

/-- Smallest `k` (from `k0` up, fuel permitting) with `1 ≤ q * 10 ^ k`. -/
def expDownAux (q : ℚ) : ℕ → ℕ → ℕ
  | k, 0 => k
  | k, fuel + 1 => if 1 ≤ q * 10 ^ k then k else expDownAux q (k + 1) fuel

/-- Smallest `k` (from `k0` up, fuel permitting) with `q < 10 ^ (k+1)`. -/
def expUpAux (q : ℚ) : ℕ → ℕ → ℕ
  | k, 0 => k
  | k, fuel + 1 => if q < 10 ^ (k + 1) then k else expUpAux q (k + 1) fuel

/-- The decimal exponent of `q > 0`: the unique `e` with
`10 ^ e ≤ q < 10 ^ (e+1)`.  The fuel bounds (`q.num.toNat` above one,
`q.den` below one) are proved sufficient in the lemmas below. -/
def decExp (q : ℚ) : ℤ :=
  if 1 ≤ q then (expUpAux q 0 q.num.toNat : ℤ) else -(expDownAux q 0 q.den : ℤ)

/-- Go's exponent suffix after `'e'`: a sign, then at least two digits. -/
def expChars (e : ℤ) : List Char :=
  (if e < 0 then '-' else '+') :: leftPad '0' 2 (natDigits e.natAbs)

/-- Rendering of a rounded significand `m` (with `prec` digits) at decimal
exponent `e`: fixed form when `e ∈ [-4, prec)`, exponent form otherwise,
trailing zeros removed (the body of Go's `'g'` formatting). -/
def formatGRender (m e : ℤ) (prec : ℕ) : List Char :=
  let ds := natDigits m.toNat
  if e < -4 ∨ (prec : ℤ) ≤ e then
    let frac := stripZerosRight (ds.drop 1)
    ds.take 1 ++ (if frac.isEmpty then [] else '.' :: frac) ++ 'e' :: expChars e
  else if 0 ≤ e then
    let fp := stripZerosRight (ds.drop (e.toNat + 1))
    ds.take (e.toNat + 1) ++ (if fp.isEmpty then [] else '.' :: fp)
  else
    '0' :: '.' :: (List.replicate ((-e).toNat - 1) '0' ++ stripZerosRight ds)

/-- `strconv.FormatFloat(q, 'g', prec, 64)` for `q > 0`, `prec ≥ 1`:
round to `prec` significant digits `m` (bumping the exponent when rounding
carries over to `10 ^ prec`), then render via `formatGRender`. -/
def formatFloatGPos (q : ℚ) (prec : ℕ) : List Char :=
  let e0 : ℤ := decExp q
  let m0 : ℤ := fround (q * 10 ^ ((prec : ℤ) - 1 - e0))
  if m0 = 10 ^ prec then formatGRender (10 ^ (prec - 1)) (e0 + 1) prec
  else formatGRender m0 e0 prec

/-- `strconv.FormatFloat(q, 'g', prec, 64)`. -/
def formatFloatG (q : ℚ) (prec : ℕ) : List Char :=
  if q = 0 then ['0']
  else if q < 0 then '-' :: formatFloatGPos (-q) prec
  else formatFloatGPos q prec

/-- The comma-insertion loop of `formatHumanReadable`, on the reversed digit
list: after every third copied digit a `','` is inserted when digits remain. -/
def commaRev : List Char → List Char
  | [] => []
  | [a] => [a]
  | [a, b] => [a, b]
  | [a, b, c] => [a, b, c]
  | a :: b :: c :: d :: rest => a :: b :: c :: ',' :: commaRev (d :: rest)

/-- Thousands separators: commas every three digits from the right (the
effect of the index loop in the source). -/
def addThousandsSep (l : List Char) : List Char := (commaRev l.reverse).reverse

/-- `formatHumanReadable` of logic.go, on character lists.  For `f ≥ 1` the
source splits the fixed-form string at the (unique) `'.'`, which is the
`takeWhile`/`dropWhile` decomposition below, and groups the integer part. -/
def formatHumanReadableL (f : ℚ) : List Char :=
  if 1 ≤ f then
    let prec : ℕ := if 1000 ≤ f then 0 else 2
    let s := formatFloatF f prec
    let integerPart := s.takeWhile (· ≠ '.')
    let fractionalPart := s.dropWhile (· ≠ '.')
    if integerPart.length ≤ 3 then s
    else addThousandsSep integerPart ++ fractionalPart
  else formatFloatG f 3

/-- `formatHumanReadable` of logic.go. -/
def formatHumanReadable (f : ℚ) : String :=
  String.mk (formatHumanReadableL f)

/-- Go's `fmt.Sprintf("%.2f", q)` (used for the `($…)` USD figures). -/
def sprintfF2 (q : ℚ) : String :=
  if q < 0 then String.mk ('-' :: formatFloatF (-q) 2) else String.mk (formatFloatF q 2)

/-! ## `calculateNetBalanceChanges` (logic.go, steps 4–5)

The emission loops, producing the `(sent, received)` string lists.  The
price oracle's answers during the call are passed as a pure snapshot
`priceOf : String → Option ℚ` (`GetPriceUSD`'s own stateful behaviour is
modelled separately below); the metadata map is the snapshot taken by
`getMetadataMap`.  The fallback symbol `Mint(mint[:4]...)` slices the mint,
so the function is `Option`-valued (`none` = Go panic). -/

/-- One iteration of the step-5 token loop: skip near-zero deltas, format,
price, and append to the proper side. -/
def emitToken (metadataMap : String → Option TokenMetadata) (priceOf : String → Option ℚ)
    (acc : List String × List String) (p : String × ℚ) : Option (List String × List String) :=
  let mint := p.1
  let delta := p.2
  if |delta| < 1/1000000000000000000 then some acc
  else
    let amount := |delta|
    let meta? : Option TokenMetadata :=
      match metadataMap mint with
      | some m => some m
      | none => (goSlice mint 0 4).map fun s4 => ⟨"Mint(" ++ s4 ++ "...)", 6⟩
    match meta? with
    | none => none
    | some meta =>
      let base := formatHumanReadable amount ++ " " ++ meta.symbol
      let formatted :=
        if (isPriceTracked mint).2 then
          match priceOf (isPriceTracked mint).1 with
          | some price => base ++ " ($" ++ sprintfF2 (amount * price) ++ ")"
          | none => base
        else base
      if delta > 0 then some (acc.1, acc.2 ++ [formatted])
      else some (acc.1 ++ [formatted], acc.2)

/-- Step 4: the SOL line, appended to `received` or `sent` when the total
SOL change clears the `1e-12` epsilon. -/
def emitSol (priceOf : String → Option ℚ) (tx : HeliusTransaction) (trackedAddr : String) :
    List String × List String :=
  let tot := totalSolChange tx trackedAddr
  if |tot| > 1/1000000000000 then
    let amount := |tot|
    let base := formatHumanReadable amount ++ " SOL"
    let formatted :=
      match priceOf "solana" with
      | some price => base ++ " ($" ++ sprintfF2 (amount * price) ++ ")"
      | none => base
    if tot > 0 then ([], [formatted]) else ([formatted], [])
  else ([], [])

/-- `calculateNetBalanceChanges` of logic.go: `(sent, received)`. -/
def calculateNetBalanceChanges (metadataMap : String → Option TokenMetadata)
    (priceOf : String → Option ℚ) (tx : HeliusTransaction) (trackedAddr : String) :
    Option (List String × List String) :=
  (splDeltas tx trackedAddr).foldlM (emitToken metadataMap priceOf)
    (emitSol priceOf tx trackedAddr)

/-! ## Amount parsing (logic.go, `parseAmount`) -/

/-- Greedy decimal-digit scan: value, number of digits consumed, rest. -/
def parseDigitsAux : List Char → ℕ → ℕ → ℕ × ℕ × List Char
  | [], v, n => (v, n, [])
  | c :: cs, v, n =>
    if '0' ≤ c ∧ c ≤ '9' then parseDigitsAux cs (10 * v + (c.toNat - 48)) (n + 1)
    else (v, n, c :: cs)

/-- Model of `strconv.ParseFloat` on plain decimal/scientific input:
`none` models a parse error (Go's special forms — hex floats, inf, nan —
do not occur in the RPC amount strings being parsed). -/
def goParseFloat (s : String) : Option ℚ :=
  let cs := s.toList
  let signed : ℚ × List Char :=
    match cs with
    | '-' :: t => (-1, t)
    | '+' :: t => (1, t)
    | _ => (1, cs)
  let (ip, ni, cs1) := parseDigitsAux signed.2 0 0
  let fracPart : ℕ × ℕ × List Char :=
    match cs1 with
    | '.' :: t => parseDigitsAux t 0 0
    | _ => (0, 0, cs1)
  let (fp, nf, cs2) := fracPart
  if ni = 0 ∧ nf = 0 then none
  else
    let mant : ℚ := signed.1 * ((ip : ℚ) + (fp : ℚ) / 10 ^ nf)
    match cs2 with
    | [] => some mant
    | 'e' :: t =>
      let esigned : ℤ × List Char :=
        match t with
        | '-' :: u => (-1, u)
        | '+' :: u => (1, u)
        | _ => (1, t)
      let (ev, ne, t2) := parseDigitsAux esigned.2 0 0
      if ne = 0 ∨ t2 ≠ [] then none else some (mant * 10 ^ (esigned.1 * ev))
    | 'E' :: t =>
      let esigned : ℤ × List Char :=
        match t with
        | '-' :: u => (-1, u)
        | '+' :: u => (1, u)
        | _ => (1, t)
      let (ev, ne, t2) := parseDigitsAux esigned.2 0 0
      if ne = 0 ∨ t2 ≠ [] then none else some (mant * 10 ^ (esigned.1 * ev))
    | _ => none

/-- `parseAmount` of logic.go: parse-or-zero, then scale by `10^decimals`. -/
def parseAmount (amountStr : String) (decimals : ℤ) : ℚ :=
  (goParseFloat amountStr).getD 0 / 10 ^ decimals

/-! ## Metadata cache (internal/analyzer/analyzer.go) -/

/-- The analyzer's `sync.Map` metadata cache, as a function. -/
abbrev MetaCache := String → Option TokenMetadata

/-- `cache.Store(k, v)`. -/
def storeMeta (c : MetaCache) (k : String) (v : TokenMetadata) : MetaCache :=
  fun x => if x = k then some v else c x

/-- The cache `New` constructs: WSOL ↦ ("SOL", 9), USDC ↦ ("USDC", 6). -/
def newMetadataCache : MetaCache :=
  storeMeta (storeMeta (fun _ => none) wsolMint ⟨"SOL", 9⟩) usdcMint ⟨"USDC", 6⟩

/-- `shortenAddress` of analyzer.go. -/
def shortenAddress (addr : String) : String :=
  if addr.length ≤ 8 then "<code>" ++ addr ++ "</code>"
  else "<code>" ++ String.mk (addr.toList.take 4) ++ "..."
       ++ String.mk (addr.toList.drop (addr.length - 4)) ++ "</code>"

/-- The mint set `ensureMetadataIsCached` collects: non-empty transfer mints
plus all swap-event mints (a Go `map[string]bool`; processing duplicates is
a no-op since the first pass caches the mint). -/
def txMints (tx : HeliusTransaction) : List String :=
  (tx.tokenTransfers.filterMap fun t => if t.mint ≠ "" then some t.mint else none)
  ++ (match tx.eventsSwap with
      | some sw => sw.tokenInputs.map (·.mint) ++ sw.tokenOutputs.map (·.mint)
      | none => [])

/-- `ensureMetadataIsCached` of analyzer.go.  `metaFetch` is the outcome of
the remote `fetchOnChainMetadata` call (`none` = any error, which the source
absorbs by caching a fallback entry).  The second component records the
mints for which a remote lookup was performed.  `ensureStep` is the loop
body: an already-cached mint is left alone, a missing one is fetched and
stored (fallback entry on error). -/
def ensureStep (metaFetch : String → Option TokenMetadata)
    (acc : MetaCache × List String) (mint : String) : MetaCache × List String :=
  match acc.1 mint with
  | some _ => acc
  | none =>
    match metaFetch mint with
    | none => (storeMeta acc.1 mint ⟨"Mint(" ++ shortenAddress mint ++ ")", 6⟩, acc.2 ++ [mint])
    | some meta => (storeMeta acc.1 mint meta, acc.2 ++ [mint])

/-- `ensureMetadataIsCached` of analyzer.go, as the fold of `ensureStep`
over the collected mints. -/
def ensureMetadataIsCached (cache : MetaCache) (metaFetch : String → Option TokenMetadata)
    (tx : HeliusTransaction) : MetaCache × List String :=
  (txMints tx).foldl (ensureStep metaFetch) (cache, [])

/-- Iterated analyses: run `ensureMetadataIsCached` over a sequence of
transactions (each with its own metadata-oracle answers), accumulating every
remote lookup performed. -/
def ensureMany (cache : MetaCache)
    (steps : List ((String → Option TokenMetadata) × HeliusTransaction)) :
    MetaCache × List String :=
  steps.foldl
    (fun acc step =>
      let r := ensureMetadataIsCached acc.1 step.1 step.2
      (r.1, acc.2 ++ r.2))
    (cache, [])

/-! ## Description cleaning (analyzer.go, `solanaAddressRegex`)

`regexp.MustCompile(base58 char class, 32 to 44 repetitions)` with
`ReplaceAllStringFunc`: scan left to right; inside a maximal base58 run of
length ≥ 32, greedily match 44 characters (or the whole run when shorter)
and continue after the match. -/

/-- The character class `[1-9A-HJ-NP-Za-km-z]`. -/
def isBase58Char (c : Char) : Bool :=
  ('1' ≤ c && c ≤ '9') || ('A' ≤ c && c ≤ 'H') || ('J' ≤ c && c ≤ 'N')
  || ('P' ≤ c && c ≤ 'Z') || ('a' ≤ c && c ≤ 'k') || ('m' ≤ c && c ≤ 'z')

/-- The replacement callback: addresses longer than 8 characters become
`head4...tail4` (the guard keeps the Go slices in range). -/
def shortenMatch (m : List Char) : List Char :=
  if 8 < m.length then m.take 4 ++ '.' :: '.' :: '.' :: m.drop (m.length - 4) else m

/-- `solanaAddressRegex.ReplaceAllStringFunc` on the description text. -/
def cleanseDescription (l : List Char) : List Char :=
  match l with
  | [] => []
  | c :: rest =>
    if hb : isBase58Char c then
      if h32 : 32 ≤ ((c :: rest).takeWhile isBase58Char).length then
        shortenMatch (((c :: rest).takeWhile isBase58Char).take 44)
          ++ cleanseDescription
              (((c :: rest).takeWhile isBase58Char).drop 44 ++ (c :: rest).dropWhile isBase58Char)
      else (c :: rest).takeWhile isBase58Char ++ cleanseDescription ((c :: rest).dropWhile isBase58Char)
    else c :: cleanseDescription rest
termination_by l.length
decreasing_by
  · have h := congrArg List.length
      (List.takeWhile_append_dropWhile (p := isBase58Char) (l := c :: rest))
    rw [List.length_append, List.length_cons] at h
    simp only [List.length_append, List.length_drop, List.length_cons]
    omega
  · have h := congrArg List.length
      (List.takeWhile_append_dropWhile (p := isBase58Char) (l := c :: rest))
    rw [List.length_append, List.length_cons, List.takeWhile_cons_of_pos hb,
      List.length_cons] at h
    simp only [List.length_cons]
    omega
  · simp

/-! ## Summary building and the analysis pipeline (analyzer.go) -/

/-- `buildSummary` of analyzer.go.  `none` models the panic of the unguarded
signature slices `tx.Signature[:6]` and `tx.Signature[len-6:]`. -/
def buildSummary (tx : HeliusTransaction) (interpretation : String)
    (sent received : List String) : Option String :=
  let b1 := "<b>" ++ interpretation ++ "</b>\n"
  let b2 :=
    if tx.description ≠ "" then
      b1 ++ "ℹ️ <i>" ++ String.mk (cleanseDescription tx.description.toList) ++ "</i>\n"
    else b1
  let b3 := b2 ++ "\n"
  let b4 :=
    if sent.length > 0 then b3 ++ "💰 <b>Sent:</b> " ++ String.intercalate ", " sent ++ "\n"
    else b3
  let b5 :=
    if received.length > 0 then
      b4 ++ "💸 <b>Received:</b> " ++ String.intercalate ", " received ++ "\n"
    else b4
  match goSlice tx.signature 0 6,
      goSlice tx.signature ((tx.signature.toList.length : ℤ) - 6) (tx.signature.toList.length : ℤ) with
  | some pre6, some suf6 =>
    some (b5 ++ "\n<a href=\"https://solscan.io/tx/" ++ tx.signature ++ "\">" ++ pre6
      ++ "..." ++ suf6 ++ "</a>")
  | _, _ => none

/-- The `addFormattedItem` closure of `parseSwapEvent`. -/
def addFormattedItem (metadataMap : MetaCache) (priceOf : String → Option ℚ)
    (item : TokenSwapAmount) : String :=
  let amount := parseAmount item.rawTokenAmount.tokenAmount item.rawTokenAmount.decimals
  let meta :=
    match metadataMap item.mint with
    | some m => m
    | none => ⟨"Mint(" ++ shortenAddress item.mint ++ ")", item.rawTokenAmount.decimals⟩
  let base := formatHumanReadable amount ++ " " ++ meta.symbol
  if (isPriceTracked item.mint).2 then
    match priceOf (isPriceTracked item.mint).1 with
    | some price => base ++ " ($" ++ sprintfF2 (amount * price) ++ ")"
    | none => base
  else base

/-- `parseSwapEvent` of analyzer.go: trust the structured swap event when
present, otherwise fall back to the netting computation. -/
def parseSwapEvent (metadataMap : MetaCache) (priceOf : String → Option ℚ)
    (tx : HeliusTransaction) (trackedAddr : String) : Option (List String × List String) :=
  match tx.eventsSwap with
  | none => calculateNetBalanceChanges metadataMap priceOf tx trackedAddr
  | some sw =>
    some
      ((sw.tokenInputs.filter (fun i => i.userAccount = trackedAddr)).map
          (addFormattedItem metadataMap priceOf),
        (sw.tokenOutputs.filter (fun i => i.userAccount = trackedAddr)).map
          (addFormattedItem metadataMap priceOf))

/-- The enrichment service's response, as the HTTP layer hands it to
`fetchHeliusTransaction`: a transport error flag (`client.Do` failed), the
HTTP status, and the decoded body (`none` = JSON decode failure). -/
structure FetchResponse where
  transportError : Bool
  status : ℕ
  body : Option (List HeliusTransaction)

/-- `fetchHeliusTransaction` of fetch.go. -/
def fetchHeliusTransaction (resp : FetchResponse) (signature : String) :
    Except String HeliusTransaction :=
  if resp.transportError then .error "request error"
  else if resp.status ≠ 200 then .error "helius api returned non-200 status"
  else
    match resp.body with
    | none => .error ("failed to decode or empty helius response for signature " ++ signature)
    | some [] => .error ("failed to decode or empty helius response for signature " ++ signature)
    | some (t :: _) => .ok t

/-- The `switch tx.Type` classification of `AnalyzeSignature`: the
`(sent, received)` lists plus the interpretation headline (`none` = a panic
inside the netting computation). -/
def classifyStep (metadataMap : MetaCache) (priceOf : String → Option ℚ)
    (tx : HeliusTransaction) (trackedAddr : String) :
    Option ((List String × List String) × String) :=
  if tx.type = "CREATE" then
    (calculateNetBalanceChanges metadataMap priceOf tx trackedAddr).map fun sr =>
      (sr, "🧱 CREATE & BUY via " ++ tx.source ++ ": Bought " ++ sr.2.headD "new token")
  else if tx.type = "SWAP" then
    (parseSwapEvent metadataMap priceOf tx trackedAddr).map fun sr =>
      (sr, "🔁 SWAP via " ++ tx.source)
  else
    (calculateNetBalanceChanges metadataMap priceOf tx trackedAddr).map fun sr =>
      (sr,
        if sr.1.length > 0 ∧ sr.2.length > 0 then "↔️ INTERACTION via " ++ tx.source
        else if sr.1.length > 0 then "⬆️ SEND via " ++ tx.source
        else if sr.2.length > 0 then "⬇️ RECEIVE via " ++ tx.source
        else "⚙️ " ++ tx.type.toLower.toUpper ++ " via " ++ tx.source)

/-- `AnalyzeSignature` after a successful fetch: filter, metadata pre-warm,
classify and net, build the summary. -/
def analyzeBody (metaFetch : String → Option TokenMetadata) (priceOf : String → Option ℚ)
    (cache : MetaCache) (tx : HeliusTransaction) (trackedAddr : String) :
    Option (Except String String) :=
  if shouldFilter tx trackedAddr then some (.ok "")
  else
    (classifyStep (ensureMetadataIsCached cache metaFetch tx).1 priceOf tx trackedAddr).bind
      fun p => (buildSummary tx p.2 p.1.1 p.1.2).map Except.ok

/-- `AnalyzeSignature` of analyzer.go.  Oracles: `resp` the enrichment
response, `metaFetch` the outcome of on-chain metadata resolution per mint,
`priceOf` the price oracle's answers during this call.  `cache` is the
analyzer's metadata cache at entry.  `none` models a panic in a later step;
`some (.error _)` the returned fetch error; `some (.ok s)` a normal return. -/
def analyzeSignature (resp : FetchResponse) (metaFetch : String → Option TokenMetadata)
    (priceOf : String → Option ℚ) (cache : MetaCache) (signature trackedAddr : String) :
    Option (Except String String) :=
  match fetchHeliusTransaction resp signature with
  | .error e => some (.error ("failed to fetch tx " ++ signature ++ ": " ++ e))
  | .ok tx => analyzeBody metaFetch priceOf cache tx trackedAddr

/-! ## Price oracle (analyzer.go, `GetPriceUSD`) -/

/-- A `cachedPrice` entry: price and fetch time (seconds). -/
structure CachedPrice where
  price : ℚ
  lastFetched : ℚ
deriving DecidableEq

/-- The oracle's `sync.Map` price cache. -/
abbrev PriceCache := String → Option CachedPrice

/-- The remote leg of `GetPriceUSD`: `fetch = none` is a transport error
(`client.Do` failed); `fetch = some none` a response whose decoded map has no
`usd` price for `coinID` (including an undecodable body, whose decode error
the source discards, leaving the empty map); `fetch = some (some p)` a
successful quote, which is stored with the current time. -/
def priceFetchStep (cache : PriceCache) (now : ℚ) (fetch : Option (Option ℚ))
    (coinID : String) : (ℚ × Bool) × PriceCache :=
  match fetch with
  | none => ((0, false), cache)
  | some none => ((0, false), cache)
  | some (some price) =>
    ((price, true), fun x => if x = coinID then some ⟨price, now⟩ else cache x)

/-- `GetPriceUSD` of analyzer.go: cached quote when fresh (under 60 s old),
otherwise the remote fetch. -/
def getPriceUSD (cache : PriceCache) (now : ℚ) (fetch : Option (Option ℚ))
    (coinID : String) : (ℚ × Bool) × PriceCache :=
  match cache coinID with
  | some cp =>
    if now - cp.lastFetched < 60 then ((cp.price, true), cache)
    else priceFetchStep cache now fetch coinID
  | none => priceFetchStep cache now fetch coinID

/-! ## Stream subscriber (internal/tracker, `Subscriber`) -/

/-- The per-subscriber dedupe cache: signature ↦ first-seen time (seconds). -/
abbrev DedupCache := String → Option ℚ

/-- `isDuplicate` of tracker: a signature seen less than 30 s ago is a
duplicate (cache untouched); otherwise the signature is (re)recorded at the
current time and reported fresh. -/
def isDuplicate (cache : DedupCache) (now : ℚ) (signature : String) : Bool × DedupCache :=
  match cache signature with
  | some ts =>
    if now - ts < 30 then (true, cache)
    else (false, fun x => if x = signature then some now else cache x)
  | none => (false, fun x => if x = signature then some now else cache x)

/-- A decoded `logsSubscribe` notification (`none` at the use sites models a
`json.Unmarshal` failure).  `err` is the `params.result.value.err` field,
`some _` = the transaction failed on-chain. -/
structure LogsNotification where
  method : String
  signature : String
  err : Option String
deriving DecidableEq

/-- What one iteration of the read loop does after a successful read:
either continue (optionally having invoked the notification callback with
the emitted signature), or panic (the unguarded `signature[:16]` log slice). -/
inductive LoopStep where
  | cont (emit : Option String)
  | panicked
deriving DecidableEq

/-- One iteration of the `Run` read loop on a successfully read message
(`msg = none` = undecodable payload). -/
def processMessage (cache : DedupCache) (now : ℚ) (msg : Option LogsNotification) :
    DedupCache × LoopStep :=
  match msg with
  | none => (cache, .cont none)
  | some notif =>
    if notif.method ≠ "logsNotification" ∨ notif.signature = "" ∨ notif.err.isSome then
      (cache, .cont none)
    else
      match isDuplicate cache now notif.signature with
      | (true, cache') => (cache', .cont none)
      | (false, cache') =>
        if notif.signature.length < 16 then (cache', .panicked)
        else (cache', .cont (some notif.signature))

/-- The read loop over a sequence of timed inbound messages: the final
dedupe cache and the signatures passed to the notification callback, in
order.  A panic aborts the loop. -/
def runMessages : DedupCache → List (ℚ × Option LogsNotification) → DedupCache × List String
  | cache, [] => (cache, [])
  | cache, (t, m) :: rest =>
    match processMessage cache t m with
    | (cache', .panicked) => (cache', [])
    | (cache', .cont e) =>
      let out := runMessages cache' rest
      (out.1, e.toList ++ out.2)

/-! ## Spec-side predicates and concrete fixtures used by the claim
statements -/

/-- The number of significant decimal digits displayed by a rendered
number: digits of the part before any exponent marker, leading zeros
dropped. -/
def sigDigitCount (s : List Char) : ℕ :=
  (((s.takeWhile (fun c => c != 'e')).filter
      (fun c => '0' ≤ c && c ≤ '9')).dropWhile (fun c => c == '0')).length

/-- No token other than the wrapped-native mint appears in a token transfer
with the watched address as sender or receiver. -/
def noOtherTokenMoved (tx : HeliusTransaction) (addr : String) : Prop :=
  ∀ tt ∈ tx.tokenTransfers, tt.mint ≠ wsolMint →
    ¬(tt.fromUserAccount = addr ∨ tt.toUserAccount = addr)

/-- The absolute native balance change recorded for the watched address is
below the dust threshold (0.0001 SOL). -/
def nativeBelowDust (tx : HeliusTransaction) (addr : String) : Prop :=
  |(nativeChangeLamports tx addr : ℚ) / lamportsPerSol| < filterThreshold

/-- A transaction that failed on-chain (`transactionError` a non-`"null"`
payload) but moved nothing: exercises the failed-on-chain guard of
`shouldFilter`. -/
def txFailed : HeliusTransaction :=
  { signature := "5VERYshortSIG", timestamp := 0, fee := 5000, feePayer := "w",
    type := "TRANSFER", source := "SYSTEM_PROGRAM", description := "",
    tokenTransfers := [], nativeTransfers := [], accountData := [],
    transactionError := some "\x7b\"InstructionError\":[0,\"Custom\"]\x7d",
    eventsSwap := none }

/-- A fee-only dust transaction for the watched address `"w"`: a 5000
lamport debit, one WSOL transfer leg, nothing else. -/
def txDust : HeliusTransaction :=
  { signature := "3dustSIGNATURExxxxxxxx", timestamp := 0, fee := 5000, feePayer := "w",
    type := "TRANSFER", source := "SYSTEM_PROGRAM", description := "",
    tokenTransfers := [⟨"w", "w", wsolMint, 5/1000⟩], nativeTransfers := [],
    accountData := [⟨"w", -5000⟩], transactionError := none, eventsSwap := none }

/-- A well-formed `logsNotification` for the dedup witness (22-character
signature, no on-chain error). -/
def dupNotif : LogsNotification :=
  ⟨"logsNotification", "SIGNATUREofLENGTH22xxx", none⟩

/-- A transaction in which the watched address `"w"` pays 1.5 SOL natively
and receives 2 WSOL from a counterparty: exercises the inbound-wrap folding
rule of `calculateNetBalanceChanges`. -/
def txWrap : HeliusTransaction :=
  { signature := "4wrapSIGNATURExxxxxxxx", timestamp := 0, fee := 5000, feePayer := "w",
    type := "TRANSFER", source := "SYSTEM_PROGRAM", description := "",
    tokenTransfers := [⟨"other", "w", wsolMint, 2⟩], nativeTransfers := [],
    accountData := [⟨"w", -1500000000⟩], transactionError := none, eventsSwap := none }

/-- An enrichment response that failed with HTTP 500. -/
def resp500 : FetchResponse := ⟨false, 500, none⟩

/-- A successful enrichment response carrying the dust transaction. -/
def respDust : FetchResponse := ⟨false, 200, some [txDust]⟩

/-- A price cache holding one quote for `"solana"`, fetched at time 0. -/
def priceCacheFix : PriceCache :=
  fun x => if x = "solana" then some ⟨100, 0⟩ else none

/-! # Theorems -/

/-! ## Claim C2: the dust filter -/

/-- Claim C2, counterexample: the claim as frozen omits the failed-on-chain
guard.  For a transaction whose `transactionError` is a non-`"null"` payload,
no token moves for the watched address and the native delta is zero (below
the dust threshold), yet `shouldFilter` returns `false`, not `true` as the
claim states. -/
theorem claim_C2_cex :
    noOtherTokenMoved txFailed "w" ∧ nativeBelowDust txFailed "w" ∧
      shouldFilter txFailed "w" = false := by
  refine ⟨?_, ?_, ?_⟩
  · intro tt htt
    simp [txFailed] at htt
  · show |((0 : ℤ) : ℚ) / lamportsPerSol| < filterThreshold
    rw [show ((0 : ℤ) : ℚ) = 0 by norm_num]
    simp [lamportsPerSol, filterThreshold]
  · rfl

/-- Claim C2 (amended: the transaction must also not have failed on-chain,
i.e. `transactionError` is absent or the literal `"null"`; the source's
first guard returns `false` for failed transactions).  Under that extra
hypothesis, if no token other than WSOL moves for the watched address and the
absolute native delta is below 0.0001 SOL, the transaction is suppressed. -/
theorem claim_C2 (tx : HeliusTransaction) (addr : String)
    (hok : tx.transactionError = none ∨ tx.transactionError = some "null")
    (hno : noOtherTokenMoved tx addr) (hdust : nativeBelowDust tx addr) :
    shouldFilter tx addr = true := by
  have hfail : txFailedOnChain tx = false := by
    rcases hok with h | h <;> simp [txFailedOnChain, h]
  simp only [shouldFilter, hfail, Bool.false_eq_true, if_false, Bool.and_eq_true,
    Bool.not_eq_true', decide_eq_true_eq]
  refine ⟨?_, hdust⟩
  rw [List.any_eq_false]
  intro tt htt
  by_cases hm : tt.mint = wsolMint
  · simp [hm]
  · have hod := hno tt htt hm
    simp only [Bool.and_eq_true, bne_iff_ne, ne_eq, Bool.or_eq_true, beq_iff_eq, not_and]
    intro _
    intro hc
    exact hod hc

/-- Claim C2, witness: a fee-only dust transaction (5000 lamport debit, only
a WSOL self-leg) is filtered. -/
theorem claim_C2_witness : shouldFilter txDust "w" = true :=
  claim_C2 txDust "w" (Or.inl rfl)
    (by
      intro tt htt hm
      simp only [txDust, List.mem_singleton] at htt
      subst htt
      simp [wsolMint] at hm)
    (by
      show |((-5000 : ℤ) : ℚ) / lamportsPerSol| < filterThreshold
      rw [show ((-5000 : ℤ) : ℚ) = -5000 by norm_num]
      rw [lamportsPerSol, filterThreshold]
      rw [abs_div]
      norm_num)

/-! ## Claim C4: per-subscription dedup -/

theorem isDuplicate_preserves_other (cache : DedupCache) (now : ℚ) (sig x : String)
    (hx : x ≠ sig) : (isDuplicate cache now sig).2 x = cache x := by
  unfold isDuplicate
  cases hcs : cache sig with
  | none => simp [hx]
  | some ts =>
    by_cases ht : now - ts < 30 <;> simp [ht, hx]

theorem processMessage_preserves (cache : DedupCache) (now : ℚ)
    (m : Option LogsNotification) (x : String)
    (hx : ∀ notif, m = some notif → x ≠ notif.signature) :
    (processMessage cache now m).1 x = cache x := by
  cases m with
  | none => rfl
  | some notif =>
    have hxs := hx notif rfl
    by_cases hg : notif.method ≠ "logsNotification" ∨ notif.signature = "" ∨ notif.err.isSome
    · simp [processMessage, hg]
    · simp only [processMessage, hg, if_false]
      have hpre := isDuplicate_preserves_other cache now notif.signature x hxs
      rcases hdup : isDuplicate cache now notif.signature with ⟨b, cache'⟩
      have hc' : cache' x = cache x := by rw [← hpre, hdup]
      cases b with
      | true => simpa using hc'
      | false =>
        by_cases hlen : notif.signature.length < 16 <;> simpa [hlen] using hc'

theorem processMessage_emit (cache : DedupCache) (now : ℚ)
    (m : Option LogsNotification) (s : String)
    (h : (processMessage cache now m).2 = .cont (some s)) :
    ∃ notif, m = some notif ∧ notif.signature = s := by
  cases m with
  | none => simp [processMessage] at h
  | some notif =>
    refine ⟨notif, rfl, ?_⟩
    by_cases hg : notif.method ≠ "logsNotification" ∨ notif.signature = "" ∨ notif.err.isSome
    · simp [processMessage, hg] at h
    · simp only [processMessage, hg, if_false] at h
      rcases hdup : isDuplicate cache now notif.signature with ⟨b, cache'⟩
      rw [hdup] at h
      cases b with
      | true => simp at h
      | false =>
        by_cases hlen : notif.signature.length < 16 <;> simp [hlen] at h
        exact h

/-- Once a signature is on record at time `ts` and every later message
arrives less than 30 s after `ts`, the loop never notifies for it again. -/
theorem runMessages_no_emit (sig : String) (ts : ℚ)
    (events : List (ℚ × Option LogsNotification)) :
    ∀ cache : DedupCache, cache sig = some ts → (∀ e ∈ events, e.1 - ts < 30) →
      ((runMessages cache events).2.count sig = 0) := by
  induction events with
  | nil => intro cache _ _; simp [runMessages]
  | cons e rest ih =>
    intro cache hcs hwin
    obtain ⟨t, m⟩ := e
    have hwt : t - ts < 30 := by
      have := hwin (t, m) (List.mem_cons_self _ _)
      simpa using this
    have hwrest : ∀ e ∈ rest, e.1 - ts < 30 := fun e he => hwin e (List.mem_cons_of_mem _ he)
    by_cases hsig : ∀ notif, m = some notif → sig ≠ notif.signature
    · -- the message is not about `sig`: the record survives, the emission
      -- (if any) is a different signature
      have hpres : (processMessage cache t m).1 sig = some ts := by
        rw [processMessage_preserves cache t m sig hsig]; exact hcs
      rcases hpm : processMessage cache t m with ⟨cache', step⟩
      have hc' : cache' sig = some ts := by rw [← hpres, hpm]
      cases step with
      | panicked => simp [runMessages, hpm]
      | cont e =>
        have hrest := ih cache' hc' hwrest
        cases e with
        | none => simpa [runMessages, hpm] using hrest
        | some s =>
          have hs : s ≠ sig := by
            obtain ⟨notif, hm, hns⟩ := processMessage_emit cache t m s (by rw [hpm])
            exact fun hcontra => (hsig notif hm) ((hns.trans hcontra).symm)
          simp only [runMessages, hpm]
          simpa [List.count_cons, hs] using hrest
    · -- the message is about `sig`: it is a within-window duplicate
      push_neg at hsig
      obtain ⟨notif, hm, hns⟩ := hsig
      subst hm
      by_cases hg : notif.method ≠ "logsNotification" ∨ notif.signature = "" ∨ notif.err.isSome
      · simp only [runMessages, processMessage, hg, if_true]
        exact ih cache hcs hwrest
      · have hdup : isDuplicate cache t notif.signature = (true, cache) := by
          unfold isDuplicate
          rw [← hns, hcs]
          simp [hwt]
        simp only [runMessages, processMessage, hg, if_false, hdup]
        exact ih cache hcs hwrest

/-- For a signature still unknown to the cache, if all messages of the
sequence arrive inside one 30-second window, the callback fires at most once
for it. -/
theorem runMessages_at_most_once (sig : String) (t0 : ℚ)
    (events : List (ℚ × Option LogsNotification)) :
    ∀ cache : DedupCache, cache sig = none →
      (∀ e ∈ events, t0 ≤ e.1 ∧ e.1 < t0 + 30) →
      ((runMessages cache events).2.count sig ≤ 1) := by
  induction events with
  | nil => intro cache _ _; simp [runMessages]
  | cons e rest ih =>
    intro cache hcs hwin
    obtain ⟨t, m⟩ := e
    have hwt : t0 ≤ t ∧ t < t0 + 30 := by
      have := hwin (t, m) (List.mem_cons_self _ _)
      simpa using this
    have hwrest : ∀ e ∈ rest, t0 ≤ e.1 ∧ e.1 < t0 + 30 :=
      fun e he => hwin e (List.mem_cons_of_mem _ he)
    by_cases hsig : ∀ notif, m = some notif → sig ≠ notif.signature
    · have hpres : (processMessage cache t m).1 sig = none := by
        rw [processMessage_preserves cache t m sig hsig]; exact hcs
      rcases hpm : processMessage cache t m with ⟨cache', step⟩
      have hc' : cache' sig = none := by rw [← hpres, hpm]
      cases step with
      | panicked => simp [runMessages, hpm]
      | cont e =>
        have hrest := ih cache' hc' hwrest
        cases e with
        | none => simpa [runMessages, hpm] using hrest
        | some s =>
          have hs : s ≠ sig := by
            obtain ⟨notif, hm, hns⟩ := processMessage_emit cache t m s (by rw [hpm])
            exact fun hcontra => (hsig notif hm) ((hns.trans hcontra).symm)
          simp only [runMessages, hpm]
          simpa [List.count_cons, hs] using hrest
    · push_neg at hsig
      obtain ⟨notif, hm, hns⟩ := hsig
      subst hm
      by_cases hg : notif.method ≠ "logsNotification" ∨ notif.signature = "" ∨ notif.err.isSome
      · simp only [runMessages, processMessage, hg, if_true]
        exact ih cache hcs hwrest
      · have hdup : isDuplicate cache t notif.signature
            = (false, fun x => if x = notif.signature then some t else cache x) := by
          unfold isDuplicate
          rw [← hns, hcs]
        have hrec : (fun x => if x = notif.signature then some t else cache x) sig = some t := by
          simp [hns]
        have hnoemit := runMessages_no_emit sig t rest
          (fun x => if x = notif.signature then some t else cache x) hrec
          (fun e he => by
            have h1 := (hwrest e he).2
            have h2 := hwt.1
            linarith)
        by_cases hlen : notif.signature.length < 16
        · simp [runMessages, processMessage, hg, hdup, hlen]
        · simp only [runMessages, processMessage, hg, if_false, hdup, hlen]
          simp only [Option.toList, List.count_append, List.count_cons, List.count_nil]
          rw [hnoemit]
          simp [hns]

/-- Claim C4: on one Subscriber's stream, the first `isDuplicate` call for a
signature records it and returns `false`; any repeat call within the 30 s
retention window returns `true` and leaves the cache unchanged; consequently,
over any read-loop message sequence confined to one 30-second window, a
signature not previously on record triggers the notification callback at
most once. -/
theorem claim_C4 :
    (∀ (cache : DedupCache) (now : ℚ) (sig : String), cache sig = none →
      isDuplicate cache now sig
        = (false, fun x => if x = sig then some now else cache x)) ∧
    (∀ (cache : DedupCache) (now ts : ℚ) (sig : String),
      cache sig = some ts → now - ts < 30 →
      isDuplicate cache now sig = (true, cache)) ∧
    (∀ (sig : String) (t0 : ℚ) (events : List (ℚ × Option LogsNotification))
      (cache : DedupCache), cache sig = none →
      (∀ e ∈ events, t0 ≤ e.1 ∧ e.1 < t0 + 30) →
      ((runMessages cache events).2.count sig ≤ 1)) := by
  refine ⟨?_, ?_, ?_⟩
  · intro cache now sig h
    unfold isDuplicate
    rw [h]
  · intro cache now ts sig h h30
    unfold isDuplicate
    rw [h]
    simp [h30]
  · intro sig t0 events cache h hwin
    exact runMessages_at_most_once sig t0 events cache h hwin

/-- Claim C4, witness: the same signature delivered twice, 10 s apart, on a
fresh cache notifies at most once (it notifies exactly once; the count of
callback invocations evaluates to 1). -/
theorem claim_C4_witness :
    (runMessages (fun _ => none)
        [((0 : ℚ), some dupNotif), ((10 : ℚ), some dupNotif)]).2.count dupNotif.signature ≤ 1 :=
  claim_C4.2.2 dupNotif.signature 0 [((0 : ℚ), some dupNotif), ((10 : ℚ), some dupNotif)]
    (fun _ => none) rfl
    (by
      intro e he
      simp only [List.mem_cons, List.mem_singleton, List.not_mem_nil, or_false] at he
      rcases he with h | h <;> subst h <;> constructor <;> norm_num)

/-! ## Claim C6: the read loop's message filtering -/

/-- Claim C6: the read loop never invokes the notification callback for an
inbound message that fails JSON decoding, whose method is not
`"logsNotification"`, whose signature is empty, or whose `err` field is
non-null — all such messages leave the dedupe state untouched and the loop
continues (no teardown); whenever the callback is invoked, the emitted
string is the signature extracted from a well-formed message, and a
well-formed fresh message does reach the callback. -/
theorem claim_C6 :
    (∀ (cache : DedupCache) (now : ℚ),
      processMessage cache now none = (cache, .cont none)) ∧
    (∀ (cache : DedupCache) (now : ℚ) (notif : LogsNotification),
      (notif.method ≠ "logsNotification" ∨ notif.signature = "" ∨ notif.err.isSome) →
      processMessage cache now (some notif) = (cache, .cont none)) ∧
    (∀ (cache : DedupCache) (now : ℚ) (m : Option LogsNotification) (s : String),
      (processMessage cache now m).2 = .cont (some s) →
      ∃ notif, m = some notif ∧ notif.signature = s ∧
        notif.method = "logsNotification" ∧ notif.signature ≠ "" ∧ notif.err = none) ∧
    (∀ (cache : DedupCache) (now : ℚ) (notif : LogsNotification),
      notif.method = "logsNotification" → notif.signature ≠ "" → notif.err = none →
      (isDuplicate cache now notif.signature).1 = false →
      ¬ notif.signature.length < 16 →
      (processMessage cache now (some notif)).2 = .cont (some notif.signature)) := by
  refine ⟨?_, ?_, ?_, ?_⟩
  · intro cache now; rfl
  · intro cache now notif hg
    simp [processMessage, hg]
  · intro cache now m s h
    cases m with
    | none => simp [processMessage] at h
    | some notif =>
      by_cases hg : notif.method ≠ "logsNotification" ∨ notif.signature = "" ∨ notif.err.isSome
      · simp [processMessage, hg] at h
      · push_neg at hg
        obtain ⟨hm, hs, he⟩ := hg
        refine ⟨notif, rfl, ?_, hm, hs, Option.not_isSome_iff_eq_none.mp he⟩
        simp only [processMessage] at h
        rw [if_neg (by push_neg; exact ⟨hm, hs, he⟩)] at h
        rcases hdup : isDuplicate cache now notif.signature with ⟨b, cache'⟩
        rw [hdup] at h
        cases b with
        | true => simp at h
        | false =>
          by_cases hlen : notif.signature.length < 16 <;> simp [hlen] at h
          exact h
  · intro cache now notif hm hs he hfresh hlen
    have hg : ¬(notif.method ≠ "logsNotification" ∨ notif.signature = "" ∨ notif.err.isSome) := by
      push_neg
      exact ⟨hm, hs, by simp [he]⟩
    simp only [processMessage, hg, if_false]
    rcases hdup : isDuplicate cache now notif.signature with ⟨b, cache'⟩
    have hb : b = false := by rw [← hfresh, hdup]
    subst hb
    simp [hlen]

/-- Claim C6, witness: a well-formed notification on a fresh cache reaches
the callback with its extracted signature. -/
theorem claim_C6_witness :
    (processMessage (fun _ => none) 0 (some dupNotif)).2 = .cont (some dupNotif.signature) :=
  claim_C6.2.2.2 (fun _ => none) 0 dupNotif rfl (by decide) rfl rfl (by decide)

/-! ## Claims C7 and C10: the price oracle -/

theorem getPriceUSD_fresh (cache : PriceCache) (now : ℚ) (fetch : Option (Option ℚ))
    (coinID : String) (cp : CachedPrice) (hc : cache coinID = some cp)
    (hfresh : now - cp.lastFetched < 60) :
    getPriceUSD cache now fetch coinID = ((cp.price, true), cache) := by
  unfold getPriceUSD
  rw [hc]
  dsimp only
  rw [if_pos hfresh]

theorem getPriceUSD_stale (cache : PriceCache) (now : ℚ) (fetch : Option (Option ℚ))
    (coinID : String) (cp : CachedPrice) (hc : cache coinID = some cp)
    (hstale : ¬(now - cp.lastFetched < 60)) :
    getPriceUSD cache now fetch coinID = priceFetchStep cache now fetch coinID := by
  unfold getPriceUSD
  rw [hc]
  dsimp only
  rw [if_neg hstale]

theorem getPriceUSD_miss (cache : PriceCache) (now : ℚ) (fetch : Option (Option ℚ))
    (coinID : String) (hc : cache coinID = none) :
    getPriceUSD cache now fetch coinID = priceFetchStep cache now fetch coinID := by
  unfold getPriceUSD
  rw [hc]

theorem priceFetchStep_fail (cache : PriceCache) (now : ℚ) (fetch : Option (Option ℚ))
    (coinID : String) (hfail : fetch = none ∨ fetch = some none) :
    priceFetchStep cache now fetch coinID = ((0, false), cache) := by
  rcases hfail with h | h <;> subst h <;> rfl

/-- Claim C7: when the cache entry for the asset class is younger than the
60 s freshness window, `GetPriceUSD` returns the cached price with `ok=true`
and leaves the state untouched — the equation holds for every value of the
remote-fetch oracle, i.e. no remote fetch is consulted.  Otherwise the remote
fetch is what decides the outcome, and a transport failure or a response
without a price for the asset yields `(0, false)`; the return type carries no
error channel at all, so no error can abort the caller's analysis. -/
theorem claim_C7 :
    (∀ (cache : PriceCache) (now : ℚ) (fetch : Option (Option ℚ)) (coinID : String)
      (cp : CachedPrice), cache coinID = some cp → now - cp.lastFetched < 60 →
      getPriceUSD cache now fetch coinID = ((cp.price, true), cache)) ∧
    (∀ (cache : PriceCache) (now : ℚ) (fetch : Option (Option ℚ)) (coinID : String),
      (cache coinID = none ∨ ∀ cp, cache coinID = some cp → ¬(now - cp.lastFetched < 60)) →
      (fetch = none ∨ fetch = some none) →
      getPriceUSD cache now fetch coinID = ((0, false), cache)) := by
  constructor
  · intro cache now fetch coinID cp hc hfresh
    exact getPriceUSD_fresh cache now fetch coinID cp hc hfresh
  · intro cache now fetch coinID hstale hfail
    cases hc : cache coinID with
    | none => rw [getPriceUSD_miss cache now fetch coinID hc,
        priceFetchStep_fail cache now fetch coinID hfail]
    | some cp =>
      rcases hstale with h | h
      · rw [h] at hc; cases hc
      · rw [getPriceUSD_stale cache now fetch coinID cp hc (h cp hc),
          priceFetchStep_fail cache now fetch coinID hfail]

/-- Claim C7, witness: a 30 s old quote is served from the cache even when
the remote fetch would fail, and a 100 s old quote with a failing remote
fetch yields `(0, false)`. -/
theorem claim_C7_witness :
    getPriceUSD priceCacheFix 30 none "solana" = ((100, true), priceCacheFix) ∧
    getPriceUSD priceCacheFix 100 (some none) "solana" = ((0, false), priceCacheFix) :=
  ⟨claim_C7.1 priceCacheFix 30 none "solana" ⟨100, 0⟩ rfl (by norm_num),
    claim_C7.2 priceCacheFix 100 (some none) "solana"
      (Or.inr fun cp hcp => by
        have hcp' : cp = ⟨100, 0⟩ := by
          simpa [priceCacheFix] using hcp.symm
        subst hcp'
        norm_num)
      (Or.inr rfl)⟩

/-- Claim C10: with a stale cache entry and a refetch that fails (transport
error or a response without the price), `GetPriceUSD` returns `(0, false)`
and leaves the cache — including the stale entry — unchanged; `ok=true` is
returned only with a fresh cache entry's price or a just-fetched price, so a
stale cached price is never handed to the caller; and the cache changes only
on a successful fetch. -/
theorem claim_C10 :
    (∀ (cache : PriceCache) (now : ℚ) (fetch : Option (Option ℚ)) (coinID : String)
      (cp : CachedPrice), cache coinID = some cp → ¬(now - cp.lastFetched < 60) →
      (fetch = none ∨ fetch = some none) →
      getPriceUSD cache now fetch coinID = ((0, false), cache)) ∧
    (∀ (cache : PriceCache) (now : ℚ) (fetch : Option (Option ℚ)) (coinID : String),
      (getPriceUSD cache now fetch coinID).1.2 = true →
      (∃ cp, cache coinID = some cp ∧ now - cp.lastFetched < 60 ∧
        (getPriceUSD cache now fetch coinID).1.1 = cp.price) ∨
      (∃ p, fetch = some (some p) ∧ (getPriceUSD cache now fetch coinID).1.1 = p)) ∧
    (∀ (cache : PriceCache) (now : ℚ) (fetch : Option (Option ℚ)) (coinID : String),
      (getPriceUSD cache now fetch coinID).2 ≠ cache → ∃ p, fetch = some (some p)) := by
  refine ⟨?_, ?_, ?_⟩
  · intro cache now fetch coinID cp hc hstale hfail
    rw [getPriceUSD_stale cache now fetch coinID cp hc hstale,
      priceFetchStep_fail cache now fetch coinID hfail]
  · intro cache now fetch coinID hok
    have hstep : ∀ (hse : getPriceUSD cache now fetch coinID
        = priceFetchStep cache now fetch coinID),
        (∃ cp, cache coinID = some cp ∧ now - cp.lastFetched < 60 ∧
          (getPriceUSD cache now fetch coinID).1.1 = cp.price) ∨
        (∃ p, fetch = some (some p) ∧ (getPriceUSD cache now fetch coinID).1.1 = p) := by
      intro hse
      rw [hse] at hok ⊢
      rcases fetch with _ | _ | p
      · simp [priceFetchStep] at hok
      · simp [priceFetchStep] at hok
      · exact Or.inr ⟨p, rfl, rfl⟩
    cases hc : cache coinID with
    | some cp =>
      by_cases hfresh : now - cp.lastFetched < 60
      · refine Or.inl ⟨cp, rfl, hfresh, ?_⟩
        rw [getPriceUSD_fresh cache now fetch coinID cp hc hfresh]
      · rw [← hc]
        exact hstep (getPriceUSD_stale cache now fetch coinID cp hc hfresh)
    | none =>
      rw [← hc]
      exact hstep (getPriceUSD_miss cache now fetch coinID hc)
  · intro cache now fetch coinID hchg
    rcases hf : fetch with _ | _ | p
    · exfalso
      apply hchg
      have hfail : priceFetchStep cache now fetch coinID = ((0, false), cache) :=
        priceFetchStep_fail cache now fetch coinID (Or.inl hf)
      cases hc : cache coinID with
      | some cp =>
        by_cases hfresh : now - cp.lastFetched < 60
        · rw [getPriceUSD_fresh cache now fetch coinID cp hc hfresh]
        · rw [getPriceUSD_stale cache now fetch coinID cp hc hfresh, hfail]
      | none => rw [getPriceUSD_miss cache now fetch coinID hc, hfail]
    · exfalso
      apply hchg
      have hfail : priceFetchStep cache now fetch coinID = ((0, false), cache) :=
        priceFetchStep_fail cache now fetch coinID (Or.inr hf)
      cases hc : cache coinID with
      | some cp =>
        by_cases hfresh : now - cp.lastFetched < 60
        · rw [getPriceUSD_fresh cache now fetch coinID cp hc hfresh]
        · rw [getPriceUSD_stale cache now fetch coinID cp hc hfresh, hfail]
      | none => rw [getPriceUSD_miss cache now fetch coinID hc, hfail]
    · exact ⟨p, rfl⟩

/-- Claim C10, witness: a 100 s old quote plus a response missing the price
yields `(0, false)` with the stale entry left in place. -/
theorem claim_C10_witness :
    getPriceUSD priceCacheFix 100 (some none) "solana" = ((0, false), priceCacheFix) :=
  claim_C10.1 priceCacheFix 100 (some none) "solana" ⟨100, 0⟩ rfl (by norm_num) (Or.inr rfl)

/-! ## Claim C8: the pre-populated metadata cache -/

theorem ensure_fold_invariant (cache : MetaCache) (metaFetch : String → Option TokenMetadata)
    (mints : List String) :
    ∀ acc : MetaCache × List String,
      (∀ m (v : TokenMetadata), cache m = some v → acc.1 m = some v) →
      (∀ m ∈ acc.2, cache m = none) →
      (∀ m (v : TokenMetadata), cache m = some v →
        (mints.foldl (ensureStep metaFetch) acc).1 m = some v) ∧
      (∀ m ∈ (mints.foldl (ensureStep metaFetch) acc).2, cache m = none) := by
  induction mints with
  | nil => intro acc h1 h2; exact ⟨h1, h2⟩
  | cons mint rest ih =>
    intro acc h1 h2
    rw [List.foldl_cons]
    apply ih
    · intro m v hm
      unfold ensureStep
      cases hl : acc.1 mint with
      | some w => exact h1 m v hm
      | none =>
        have hmm : m ≠ mint := fun hc => by
          rw [hc] at hm
          rw [h1 mint v hm] at hl
          cases hl
        cases metaFetch mint <;> simpa [storeMeta, hmm] using h1 m v hm
    · intro m hm
      unfold ensureStep at hm
      cases hl : acc.1 mint with
      | some w =>
        rw [hl] at hm
        exact h2 m hm
      | none =>
        rw [hl] at hm
        have hnm : cache mint = none := by
          cases hcm : cache mint with
          | none => rfl
          | some v =>
            rw [h1 mint v hcm] at hl
            cases hl
        cases hf : metaFetch mint with
        | none =>
          rw [hf] at hm
          simp only [List.mem_append, List.mem_singleton] at hm
          rcases hm with hm | hm
          · exact h2 m hm
          · rwa [hm]
        | some meta =>
          rw [hf] at hm
          simp only [List.mem_append, List.mem_singleton] at hm
          rcases hm with hm | hm
          · exact h2 m hm
          · rwa [hm]

/-- An existing cache entry survives `ensureMetadataIsCached` unchanged. -/
theorem ensure_no_overwrite (cache : MetaCache) (metaFetch : String → Option TokenMetadata)
    (tx : HeliusTransaction) (m : String) (v : TokenMetadata) (hm : cache m = some v) :
    (ensureMetadataIsCached cache metaFetch tx).1 m = some v :=
  (ensure_fold_invariant cache metaFetch (txMints tx) (cache, [])
    (fun _ _ h => h) (fun _ h => absurd h (List.not_mem_nil _))).1 m v hm

/-- A remote lookup is performed only for mints absent from the cache. -/
theorem ensure_fetches_only_absent (cache : MetaCache) (metaFetch : String → Option TokenMetadata)
    (tx : HeliusTransaction) (m : String)
    (hm : m ∈ (ensureMetadataIsCached cache metaFetch tx).2) : cache m = none :=
  (ensure_fold_invariant cache metaFetch (txMints tx) (cache, [])
    (fun _ _ h => h) (fun _ h => absurd h (List.not_mem_nil _))).2 m hm

/-- Claim C8: the cache `New` builds maps WSOL to ("SOL", 9) and USDC to
("USDC", 6); `ensureMetadataIsCached` never overwrites an existing entry and
performs remote lookups only for absent mints; hence over any sequence of
analyses starting from `New`'s cache, no remote metadata lookup is ever
performed for these two mints and every analysis reads them with the fixed
symbols and decimals. -/
theorem claim_C8 :
    (newMetadataCache wsolMint = some ⟨"SOL", 9⟩ ∧
      newMetadataCache usdcMint = some ⟨"USDC", 6⟩) ∧
    (∀ (cache : MetaCache) (metaFetch : String → Option TokenMetadata)
      (tx : HeliusTransaction) (m : String) (v : TokenMetadata), cache m = some v →
      (ensureMetadataIsCached cache metaFetch tx).1 m = some v) ∧
    (∀ (cache : MetaCache) (metaFetch : String → Option TokenMetadata)
      (tx : HeliusTransaction) (m : String),
      m ∈ (ensureMetadataIsCached cache metaFetch tx).2 → cache m = none) ∧
    (∀ steps : List ((String → Option TokenMetadata) × HeliusTransaction),
      (ensureMany newMetadataCache steps).1 wsolMint = some ⟨"SOL", 9⟩ ∧
      (ensureMany newMetadataCache steps).1 usdcMint = some ⟨"USDC", 6⟩ ∧
      wsolMint ∉ (ensureMany newMetadataCache steps).2 ∧
      usdcMint ∉ (ensureMany newMetadataCache steps).2) := by
  have hw : newMetadataCache wsolMint = some ⟨"SOL", 9⟩ := by
    simp [newMetadataCache, storeMeta, wsolMint, usdcMint]
  have hu : newMetadataCache usdcMint = some ⟨"USDC", 6⟩ := by
    simp [newMetadataCache, storeMeta]
  refine ⟨⟨hw, hu⟩, ensure_no_overwrite, ensure_fetches_only_absent, ?_⟩
  intro steps
  suffices h : ∀ (steps : List ((String → Option TokenMetadata) × HeliusTransaction))
      (acc : MetaCache × List String),
      acc.1 wsolMint = some ⟨"SOL", 9⟩ → acc.1 usdcMint = some ⟨"USDC", 6⟩ →
      wsolMint ∉ acc.2 → usdcMint ∉ acc.2 →
      (steps.foldl (fun acc step =>
        let r := ensureMetadataIsCached acc.1 step.1 step.2
        (r.1, acc.2 ++ r.2)) acc).1 wsolMint = some ⟨"SOL", 9⟩ ∧
      (steps.foldl (fun acc step =>
        let r := ensureMetadataIsCached acc.1 step.1 step.2
        (r.1, acc.2 ++ r.2)) acc).1 usdcMint = some ⟨"USDC", 6⟩ ∧
      wsolMint ∉ (steps.foldl (fun acc step =>
        let r := ensureMetadataIsCached acc.1 step.1 step.2
        (r.1, acc.2 ++ r.2)) acc).2 ∧
      usdcMint ∉ (steps.foldl (fun acc step =>
        let r := ensureMetadataIsCached acc.1 step.1 step.2
        (r.1, acc.2 ++ r.2)) acc).2 by
    exact h steps (newMetadataCache, []) hw hu (List.not_mem_nil _) (List.not_mem_nil _)
  intro steps
  induction steps with
  | nil => intro acc h1 h2 h3 h4; exact ⟨h1, h2, h3, h4⟩
  | cons step rest ih =>
    intro acc h1 h2 h3 h4
    rw [List.foldl_cons]
    apply ih
    · exact ensure_no_overwrite acc.1 step.1 step.2 wsolMint _ h1
    · exact ensure_no_overwrite acc.1 step.1 step.2 usdcMint _ h2
    · intro hmem
      rcases List.mem_append.mp hmem with hmem | hmem
      · exact h3 hmem
      · rw [ensure_fetches_only_absent acc.1 step.1 step.2 wsolMint hmem] at h1
        cases h1
    · intro hmem
      rcases List.mem_append.mp hmem with hmem | hmem
      · exact h4 hmem
      · rw [ensure_fetches_only_absent acc.1 step.1 step.2 usdcMint hmem] at h2
        cases h2

/-- Claim C8, witness: analysing the WSOL-touching dust transaction from
`New`'s cache performs no remote lookup at all, and the two pinned entries
are intact afterwards. -/
theorem claim_C8_witness :
    (ensureMetadataIsCached newMetadataCache (fun _ => none) txDust).1 wsolMint
        = some ⟨"SOL", 9⟩ ∧
    wsolMint ∉ (ensureMetadataIsCached newMetadataCache (fun _ => none) txDust).2 :=
  ⟨claim_C8.2.1 newMetadataCache (fun _ => none) txDust wsolMint ⟨"SOL", 9⟩
      (by simp [newMetadataCache, storeMeta, wsolMint, usdcMint]),
    fun hmem => by
      have h := claim_C8.2.2.1 newMetadataCache (fun _ => none) txDust wsolMint hmem
      rw [show newMetadataCache wsolMint = some ⟨"SOL", 9⟩ by
        simp [newMetadataCache, storeMeta, wsolMint, usdcMint]] at h
      cases h⟩

/-! ## Claim C1: native exposure and the WSOL folding rule -/

/-- Claim C1: `calculateNetBalanceChanges` is independent of the
`nativeTransfers` list; native exposure starts from the watched address's
aggregate `nativeBalanceChange` entry of `accountData` (which includes the
fee); the WSOL net token delta is folded into native exposure only when it
is positive and the watched address received WSOL from a different party in
the same transaction (and then it is added in full); a negative WSOL delta
is never subtracted (native exposure is never below the native delta); and
WSOL is excluded from the per-asset sums that feed the token emission loop. -/
theorem claim_C1 :
    (∀ (metadataMap : String → Option TokenMetadata) (priceOf : String → Option ℚ)
      (tx : HeliusTransaction) (trackedAddr : String) (nts : List NativeTransfer),
      calculateNetBalanceChanges metadataMap priceOf { tx with nativeTransfers := nts }
          trackedAddr
        = calculateNetBalanceChanges metadataMap priceOf tx trackedAddr) ∧
    (∀ (tx : HeliusTransaction) (addr : String),
      nativeSol tx addr = (nativeChangeLamports tx addr : ℚ) / lamportsPerSol) ∧
    (∀ (tx : HeliusTransaction) (addr : String),
      totalSolChange tx addr = nativeSol tx addr ∨
      (wsolInflowFromOther tx addr = true ∧ 0 < wsolDelta tx addr ∧
        totalSolChange tx addr = nativeSol tx addr + wsolDelta tx addr)) ∧
    (∀ (tx : HeliusTransaction) (addr : String),
      nativeSol tx addr ≤ totalSolChange tx addr) ∧
    (∀ (tx : HeliusTransaction) (addr : String) (p : String × ℚ),
      p ∈ splDeltas tx addr → p.1 ≠ wsolMint) := by
  have hcases : ∀ (tx : HeliusTransaction) (addr : String),
      totalSolChange tx addr = nativeSol tx addr ∨
      (wsolInflowFromOther tx addr = true ∧ 0 < wsolDelta tx addr ∧
        totalSolChange tx addr = nativeSol tx addr + wsolDelta tx addr) := by
    intro tx addr
    unfold totalSolChange
    by_cases h : wsolInflowFromOther tx addr = true ∧ wsolDelta tx addr > 1/1000000000000
    · refine Or.inr ⟨h.1, lt_trans (by norm_num) h.2, ?_⟩
      rw [if_pos h]
    · rw [if_neg h]
      exact Or.inl rfl
  refine ⟨?_, ?_, hcases, ?_, ?_⟩
  · intro metadataMap priceOf tx trackedAddr nts
    rfl
  · intro tx addr
    rfl
  · intro tx addr
    rcases hcases tx addr with h | ⟨_, hpos, h⟩
    · rw [h]
    · rw [h]
      linarith
  · intro tx addr p hp
    have := List.of_mem_filter hp
    simpa using this

/-- Claim C1, witness: for the wrap transaction (native −1.5 SOL, 2 WSOL in
from a counterparty) the folding rule applies: the total SOL exposure is the
native delta plus the full positive WSOL delta, it is not below the native
delta, and no WSOL entry survives into the per-asset list. -/
theorem claim_C1_witness :
    (wsolInflowFromOther txWrap "w" = true ∧ 0 < wsolDelta txWrap "w" ∧
      totalSolChange txWrap "w" = nativeSol txWrap "w" + wsolDelta txWrap "w") ∧
    nativeSol txWrap "w" ≤ totalSolChange txWrap "w" :=
  ⟨(claim_C1.2.2.1 txWrap "w").resolve_left (by
      intro h
      have h1 : nativeSol txWrap "w" = -(3/2 : ℚ) := by
        show ((-1500000000 : ℤ) : ℚ) / lamportsPerSol = -(3/2 : ℚ)
        rw [lamportsPerSol]
        norm_num
      have h2 : wsolDelta txWrap "w" = 2 := by
        with_unfolding_all decide
      have h3 : wsolInflowFromOther txWrap "w" = true := by decide
      rw [totalSolChange, h3, h2] at h
      simp only [true_and] at h
      rw [if_pos (by norm_num)] at h
      linarith),
    claim_C1.2.2.2.1 txWrap "w"⟩

/-! ## Claim C9: the unguarded signature slices in `buildSummary` -/

theorem goSlice_isSome_iff (s : String) (i j : ℤ) :
    (goSlice s i j).isSome ↔ (0 ≤ i ∧ i ≤ j ∧ j ≤ (s.toList.length : ℤ)) := by
  unfold goSlice
  by_cases h : 0 ≤ i ∧ i ≤ j ∧ j ≤ (s.toList.length : ℤ) <;> simp [h]

/-- `buildSummary` succeeds exactly when the fetched signature has at least
6 characters (the two unguarded slices are then in range). -/
theorem buildSummary_isSome_iff
    (tx : HeliusTransaction) (interpretation : String) (sent received : List String) :
    (buildSummary tx interpretation sent received).isSome ↔ 6 ≤ tx.signature.length := by
  have hlen : tx.signature.length = tx.signature.toList.length := rfl
  unfold buildSummary
  rcases hs1 : goSlice tx.signature 0 6 with _ | pre <;>
    rcases hs2 : goSlice tx.signature ((tx.signature.toList.length : ℤ) - 6)
      (tx.signature.toList.length : ℤ) with _ | suf
  · have h1 := goSlice_isSome_iff tx.signature 0 6
    rw [hs1] at h1
    simp only [Option.isSome_none, Bool.false_eq_true, false_iff] at h1
    simp only [Option.isSome_none, Bool.false_eq_true, false_iff, hlen]
    intro h6
    exact h1 ⟨by omega, by omega, by exact_mod_cast h6⟩
  · have h1 := goSlice_isSome_iff tx.signature 0 6
    rw [hs1] at h1
    simp only [Option.isSome_none, Bool.false_eq_true, false_iff] at h1
    simp only [Option.isSome_none, Bool.false_eq_true, false_iff, hlen]
    intro h6
    exact h1 ⟨by omega, by omega, by exact_mod_cast h6⟩
  · have h2 := goSlice_isSome_iff tx.signature ((tx.signature.toList.length : ℤ) - 6)
      (tx.signature.toList.length : ℤ)
    rw [hs2] at h2
    simp only [Option.isSome_none, Bool.false_eq_true, false_iff] at h2
    simp only [Option.isSome_none, Bool.false_eq_true, false_iff, hlen]
    intro h6
    have h6' : (6 : ℤ) ≤ (tx.signature.toList.length : ℤ) := by exact_mod_cast h6
    exact h2 ⟨by omega, by omega, by omega⟩
  · have h1 := goSlice_isSome_iff tx.signature 0 6
    rw [hs1] at h1
    simp only [Option.isSome_some, true_iff] at h1
    simp only [Option.isSome_some, true_iff, hlen]
    exact_mod_cast h1.2.2

/-- Claim C9: `buildSummary` slices `tx.Signature[:6]` and
`tx.Signature[len-6:]` with no length guard: it is total exactly when the
fetched signature has at least 6 characters, and for an unfiltered
transaction with a shorter signature the whole analysis ends in the
out-of-range panic (`none`), never in a returned summary. -/
theorem claim_C9 :
    (∀ (tx : HeliusTransaction) (interpretation : String) (sent received : List String),
      (buildSummary tx interpretation sent received).isSome ↔ 6 ≤ tx.signature.length) ∧
    (∀ (resp : FetchResponse) (metaFetch : String → Option TokenMetadata)
      (priceOf : String → Option ℚ) (cache : MetaCache) (signature trackedAddr : String)
      (tx : HeliusTransaction),
      fetchHeliusTransaction resp signature = .ok tx →
      shouldFilter tx trackedAddr = false →
      tx.signature.length < 6 →
      analyzeSignature resp metaFetch priceOf cache signature trackedAddr = none) := by
  have hmain := buildSummary_isSome_iff
  refine ⟨hmain, ?_⟩
  intro resp metaFetch priceOf cache signature trackedAddr tx hfetch hfilter hshort
  have hok : analyzeSignature resp metaFetch priceOf cache signature trackedAddr
      = analyzeBody metaFetch priceOf cache tx trackedAddr := by
    unfold analyzeSignature
    rw [hfetch]
  rw [hok]
  unfold analyzeBody
  rw [hfilter]
  simp only [Bool.false_eq_true, if_false]
  have hbs : ∀ (interpretation : String) (sent received : List String),
      buildSummary tx interpretation sent received = none := by
    intro interpretation sent received
    rcases hb : buildSummary tx interpretation sent received with _ | s
    · rfl
    · have := (hmain tx interpretation sent received).mp (by rw [hb]; rfl)
      omega
  have hfin : ∀ step : Option ((List String × List String) × String),
      (step.bind fun p => (buildSummary tx p.2 p.1.1 p.1.2).map Except.ok)
        = (none : Option (Except String String)) := by
    intro step
    cases step with
    | none => rfl
    | some p => simp [hbs p.2 p.1.1 p.1.2]
  exact hfin _

/-! ## Claim C3: the analysis error taxonomy -/

theorem analyzeSignature_of_ok (resp : FetchResponse) (metaFetch : String → Option TokenMetadata)
    (priceOf : String → Option ℚ) (cache : MetaCache) (signature trackedAddr : String)
    (tx : HeliusTransaction) (hfetch : fetchHeliusTransaction resp signature = .ok tx) :
    analyzeSignature resp metaFetch priceOf cache signature trackedAddr
      = analyzeBody metaFetch priceOf cache tx trackedAddr := by
  unfold analyzeSignature
  rw [hfetch]

theorem fetch_error_iff (resp : FetchResponse) (signature : String) :
    (∃ e, fetchHeliusTransaction resp signature = .error e) ↔
      (resp.transportError = true ∨ resp.status ≠ 200 ∨ resp.body = none
        ∨ resp.body = some []) := by
  unfold fetchHeliusTransaction
  by_cases ht : resp.transportError
  · simp [ht]
  · by_cases hs : resp.status = 200
    · rcases hb : resp.body with _ | (_ | ⟨t, l⟩)
      · simp [ht, hs]
      · simp [ht, hs]
      · simp [ht, hs]
    · simp [ht, hs]

theorem analyzeBody_no_error (metaFetch : String → Option TokenMetadata)
    (priceOf : String → Option ℚ) (cache : MetaCache) (tx : HeliusTransaction)
    (trackedAddr : String) (e : String) :
    analyzeBody metaFetch priceOf cache tx trackedAddr ≠ some (.error e) := by
  unfold analyzeBody
  by_cases hf : shouldFilter tx trackedAddr
  · simp [hf]
  · simp only [hf, Bool.false_eq_true, if_false]
    rcases hcls : classifyStep (ensureMetadataIsCached cache metaFetch tx).1 priceOf tx
        trackedAddr with _ | p
    · simp
    · rcases hbs : buildSummary tx p.2 p.1.1 p.1.2 with _ | s <;> simp [hbs]

theorem buildSummary_ne_empty (tx : HeliusTransaction) (interpretation : String)
    (sent received : List String) (s : String)
    (h : buildSummary tx interpretation sent received = some s) : s ≠ "" := by
  unfold buildSummary at h
  rcases hs1 : goSlice tx.signature 0 6 with _ | pre <;>
    rcases hs2 : goSlice tx.signature ((tx.signature.toList.length : ℤ) - 6)
      (tx.signature.toList.length : ℤ) with _ | suf <;>
    rw [hs1, hs2] at h
  · simp at h
  · simp at h
  · simp at h
  · simp only [Option.some_inj] at h
    intro hempty
    rw [hempty] at h
    have hl := congrArg String.length h
    rw [String.length_append] at hl
    rw [show ("</a>" : String).length = 4 from rfl] at hl
    rw [show ("" : String).length = 0 from rfl] at hl
    omega

theorem ensureStep_isSome (metaFetch : String → Option TokenMetadata)
    (acc : MetaCache × List String) (mint x : String) (h : (acc.1 x).isSome) :
    (((ensureStep metaFetch acc mint).1) x).isSome := by
  unfold ensureStep
  cases hl : acc.1 mint with
  | some w => exact h
  | none =>
    by_cases hx : x = mint <;> cases metaFetch mint <;> simp [storeMeta, hx, h]

theorem ensure_fold_covers (metaFetch : String → Option TokenMetadata) :
    ∀ (mints : List String) (acc : MetaCache × List String) (m : String),
      (m ∈ mints ∨ (acc.1 m).isSome) →
      (((mints.foldl (ensureStep metaFetch) acc).1) m).isSome := by
  intro mints
  induction mints with
  | nil =>
    intro acc m h
    rcases h with h | h
    · exact absurd h (List.not_mem_nil _)
    · exact h
  | cons mint rest ih =>
    intro acc m h
    rw [List.foldl_cons]
    apply ih
    rcases h with h | h
    · rcases List.mem_cons.mp h with h | h
      · subst h
        right
        unfold ensureStep
        cases hl : acc.1 m with
        | some w => rw [hl]; rfl
        | none => cases metaFetch m <;> simp [storeMeta]
      · exact Or.inl h
    · exact Or.inr (ensureStep_isSome metaFetch acc mint m h)

/-- Every mint collected by `ensureMetadataIsCached` ends up cached. -/
theorem ensure_covers (cache : MetaCache) (metaFetch : String → Option TokenMetadata)
    (tx : HeliusTransaction) (m : String) (hm : m ∈ txMints tx) :
    (((ensureMetadataIsCached cache metaFetch tx).1) m).isSome :=
  ensure_fold_covers metaFetch (txMints tx) (cache, []) m (Or.inl hm)

theorem bumpDelta_keys (l : List (String × ℚ)) (k : String) (v : ℚ) :
    ∀ p ∈ bumpDelta l k v, p.1 = k ∨ p.1 ∈ l.map Prod.fst := by
  induction l with
  | nil =>
    intro p hp
    simp only [bumpDelta, List.mem_singleton] at hp
    subst hp
    exact Or.inl rfl
  | cons q t ih =>
    intro p hp
    obtain ⟨k', v'⟩ := q
    simp only [bumpDelta] at hp
    by_cases hk : k' = k
    · rw [if_pos hk] at hp
      rcases List.mem_cons.mp hp with h | h
      · subst h
        exact Or.inl hk
      · refine Or.inr ?_
        rw [List.map_cons, List.mem_cons]
        exact Or.inr (List.mem_map.mpr ⟨p, h, rfl⟩)
    · rw [if_neg hk] at hp
      rcases List.mem_cons.mp hp with h | h
      · subst h
        refine Or.inr ?_
        rw [List.map_cons, List.mem_cons]
        exact Or.inl rfl
      · rcases ih p h with h' | h'
        · exact Or.inl h'
        · refine Or.inr ?_
          rw [List.map_cons, List.mem_cons]
          exact Or.inr h'

theorem bumpDelta_keys_map (l : List (String × ℚ)) (k : String) (v : ℚ) (x : String)
    (hx : x ∈ (bumpDelta l k v).map Prod.fst) : x = k ∨ x ∈ l.map Prod.fst := by
  rw [List.mem_map] at hx
  obtain ⟨p, hp, rfl⟩ := hx
  exact bumpDelta_keys l k v p hp

theorem tokenDeltaStep_keys (trackedAddr : String) (acc : List (String × ℚ))
    (tt : TokenTransfer) :
    ∀ p ∈ tokenDeltaStep trackedAddr acc tt, p.1 = tt.mint ∨ p.1 ∈ acc.map Prod.fst := by
  intro p hp
  unfold tokenDeltaStep at hp
  by_cases hto : tt.toUserAccount = trackedAddr <;>
    by_cases hfrom : tt.fromUserAccount = trackedAddr <;>
      simp only [hto, hfrom, if_true, if_false] at hp
  · rcases bumpDelta_keys _ _ _ p hp with h | h
    · exact Or.inl h
    · rcases bumpDelta_keys_map _ _ _ _ h with h' | h'
      · exact Or.inl h'
      · exact Or.inr h'
  · rcases bumpDelta_keys _ _ _ p hp with h | h
    · exact Or.inl h
    · exact Or.inr h
  · rcases bumpDelta_keys _ _ _ p hp with h | h
    · exact Or.inl h
    · exact Or.inr h
  · exact Or.inr (List.mem_map.mpr ⟨p, hp, rfl⟩)

theorem tokenDeltas_keys (tx : HeliusTransaction) (trackedAddr : String) :
    ∀ p ∈ tokenDeltas tx trackedAddr, ∃ tt ∈ tx.tokenTransfers, tt.mint = p.1 := by
  suffices h : ∀ (tts : List TokenTransfer) (acc : List (String × ℚ)),
      ∀ p ∈ tts.foldl (tokenDeltaStep trackedAddr) acc,
        p.1 ∈ acc.map Prod.fst ∨ ∃ tt ∈ tts, tt.mint = p.1 by
    intro p hp
    rcases h tx.tokenTransfers [] p hp with h' | h'
    · simp at h'
    · exact h'
  intro tts
  induction tts with
  | nil =>
    intro acc p hp
    exact Or.inl (List.mem_map.mpr ⟨p, hp, rfl⟩)
  | cons tt rest ih =>
    intro acc p hp
    rw [List.foldl_cons] at hp
    rcases ih (tokenDeltaStep trackedAddr acc tt) p hp with h | h
    · rw [List.mem_map] at h
      obtain ⟨q, hq, hqe⟩ := h
      rcases tokenDeltaStep_keys trackedAddr acc tt q hq with h' | h'
      · exact Or.inr ⟨tt, List.mem_cons_self _ _, h'.symm.trans hqe⟩
      · rw [hqe] at h'
        exact Or.inl h'
    · obtain ⟨tt', htt', he⟩ := h
      exact Or.inr ⟨tt', List.mem_cons_of_mem _ htt', he⟩

theorem emitToken_isSome (M : String → Option TokenMetadata) (P : String → Option ℚ)
    (acc : List String × List String) (p : String × ℚ)
    (hcond : (M p.1).isSome ∨ 4 ≤ p.1.length) : (emitToken M P acc p).isSome := by
  unfold emitToken
  by_cases hsmall : |p.2| < 1/1000000000000000000
  · rw [if_pos hsmall]; rfl
  · rw [if_neg hsmall]
    cases hm : M p.1 with
    | some meta =>
      simp only [hm]
      split <;> rfl
    | none =>
      have hlen : 4 ≤ p.1.length := by
        rcases hcond with h | h
        · rw [hm] at h; cases h
        · exact h
      have hslice : (goSlice p.1 0 4).isSome := by
        rw [goSlice_isSome_iff]
        refine ⟨by omega, by omega, ?_⟩
        have h4 : (4 : ℤ) ≤ (p.1.length : ℤ) := by exact_mod_cast hlen
        have hsl : p.1.length = p.1.toList.length := rfl
        rw [← hsl]
        exact h4
      obtain ⟨s4, hs4⟩ := Option.isSome_iff_exists.mp hslice
      simp only [hm, hs4, Option.map_some']
      split <;> rfl

theorem foldlM_emitToken_isSome (M : String → Option TokenMetadata) (P : String → Option ℚ) :
    ∀ (l : List (String × ℚ)) (acc : List String × List String),
      (∀ p ∈ l, (M p.1).isSome ∨ 4 ≤ p.1.length) →
      (List.foldlM (emitToken M P) acc l).isSome := by
  intro l
  induction l with
  | nil => intro acc _; rfl
  | cons p t ih =>
    intro acc h
    rw [List.foldlM_cons]
    have he := emitToken_isSome M P acc p (h p (List.mem_cons_self _ _))
    rcases hev : emitToken M P acc p with _ | acc'
    · rw [hev] at he; cases he
    · simpa using ih acc' (fun q hq => h q (List.mem_cons_of_mem _ hq))

theorem calc_isSome (M : String → Option TokenMetadata) (P : String → Option ℚ)
    (tx : HeliusTransaction) (addr : String)
    (h : ∀ p ∈ splDeltas tx addr, (M p.1).isSome ∨ 4 ≤ p.1.length) :
    (calculateNetBalanceChanges M P tx addr).isSome :=
  foldlM_emitToken_isSome M P (splDeltas tx addr) (emitSol P tx addr) h

theorem parseSwapEvent_isSome (M : String → Option TokenMetadata) (P : String → Option ℚ)
    (tx : HeliusTransaction) (addr : String)
    (h : ∀ p ∈ splDeltas tx addr, (M p.1).isSome ∨ 4 ≤ p.1.length) :
    (parseSwapEvent M P tx addr).isSome := by
  unfold parseSwapEvent
  cases hsw : tx.eventsSwap with
  | none => exact calc_isSome M P tx addr h
  | some sw => rfl

theorem classifyStep_isSome (M : String → Option TokenMetadata) (P : String → Option ℚ)
    (tx : HeliusTransaction) (addr : String)
    (h : ∀ p ∈ splDeltas tx addr, (M p.1).isSome ∨ 4 ≤ p.1.length) :
    (classifyStep M P tx addr).isSome := by
  unfold classifyStep
  by_cases h1 : tx.type = "CREATE"
  · simp only [h1, if_true]
    simpa using calc_isSome M P tx addr h
  · by_cases h2 : tx.type = "SWAP" <;> simp only [h1, h2, if_true, if_false]
    · simpa using parseSwapEvent_isSome M P tx addr h
    · simpa using calc_isSome M P tx addr h

/-- Claim C3: `AnalyzeSignature` returns a non-nil error exactly when the
fetch fails (transport error, non-200 status, undecodable body, or empty
result list); once the fetch succeeded no later step produces an error — a
filtered transaction yields the empty summary, a returned summary is empty
exactly when the transaction was filtered, and (under the slicing
preconditions recorded in claim C9: signature at least 6 characters and no
empty transfer mint) an unfiltered analysis returns an actual summary. -/
theorem claim_C3 :
    (∀ (resp : FetchResponse) (metaFetch : String → Option TokenMetadata)
      (priceOf : String → Option ℚ) (cache : MetaCache) (signature trackedAddr : String),
      (∃ e, analyzeSignature resp metaFetch priceOf cache signature trackedAddr
        = some (Except.error e)) ↔
      (resp.transportError = true ∨ resp.status ≠ 200 ∨ resp.body = none
        ∨ resp.body = some [])) ∧
    (∀ (resp : FetchResponse) (metaFetch : String → Option TokenMetadata)
      (priceOf : String → Option ℚ) (cache : MetaCache) (signature trackedAddr : String)
      (tx : HeliusTransaction) (s : String),
      fetchHeliusTransaction resp signature = .ok tx →
      analyzeSignature resp metaFetch priceOf cache signature trackedAddr
        = some (Except.ok s) →
      (s = "" ↔ shouldFilter tx trackedAddr = true)) ∧
    (∀ (resp : FetchResponse) (metaFetch : String → Option TokenMetadata)
      (priceOf : String → Option ℚ) (cache : MetaCache) (signature trackedAddr : String)
      (tx : HeliusTransaction),
      fetchHeliusTransaction resp signature = .ok tx →
      shouldFilter tx trackedAddr = true →
      analyzeSignature resp metaFetch priceOf cache signature trackedAddr
        = some (Except.ok "")) ∧
    (∀ (resp : FetchResponse) (metaFetch : String → Option TokenMetadata)
      (priceOf : String → Option ℚ) (cache : MetaCache) (signature trackedAddr : String)
      (tx : HeliusTransaction),
      fetchHeliusTransaction resp signature = .ok tx →
      6 ≤ tx.signature.length →
      (∀ tt ∈ tx.tokenTransfers, tt.mint ≠ "") →
      ∃ s, analyzeSignature resp metaFetch priceOf cache signature trackedAddr
        = some (Except.ok s)) := by
  refine ⟨?_, ?_, ?_, ?_⟩
  · intro resp metaFetch priceOf cache signature trackedAddr
    constructor
    · rintro ⟨e, he⟩
      cases hfr : fetchHeliusTransaction resp signature with
      | error e' => exact (fetch_error_iff resp signature).mp ⟨e', hfr⟩
      | ok tx =>
        rw [analyzeSignature_of_ok resp metaFetch priceOf cache signature trackedAddr tx hfr]
          at he
        exact absurd he (analyzeBody_no_error metaFetch priceOf cache tx trackedAddr e)
    · intro hcond
      obtain ⟨e, hfe⟩ := (fetch_error_iff resp signature).mpr hcond
      refine ⟨"failed to fetch tx " ++ signature ++ ": " ++ e, ?_⟩
      unfold analyzeSignature
      rw [hfe]
  · intro resp metaFetch priceOf cache signature trackedAddr tx s hfetch hres
    rw [analyzeSignature_of_ok resp metaFetch priceOf cache signature trackedAddr tx hfetch]
      at hres
    unfold analyzeBody at hres
    by_cases hf : shouldFilter tx trackedAddr
    · rw [if_pos hf] at hres
      simp only [Option.some_inj, Except.ok.injEq] at hres
      simp [← hres, hf]
    · rw [if_neg hf] at hres
      rcases hcls : classifyStep (ensureMetadataIsCached cache metaFetch tx).1 priceOf tx
          trackedAddr with _ | p <;> rw [hcls] at hres
      · simp at hres
      · simp only [Option.some_bind] at hres
        rcases hbs : buildSummary tx p.2 p.1.1 p.1.2 with _ | s' <;> rw [hbs] at hres
        · simp at hres
        · simp only [Option.map_some', Option.some_inj, Except.ok.injEq] at hres
          subst hres
          have hne := buildSummary_ne_empty tx p.2 p.1.1 p.1.2 s' hbs
          simp only [Bool.not_eq_true] at hf
          simp [hne, hf]
  · intro resp metaFetch priceOf cache signature trackedAddr tx hfetch hfil
    rw [analyzeSignature_of_ok resp metaFetch priceOf cache signature trackedAddr tx hfetch]
    unfold analyzeBody
    rw [if_pos hfil]
  · intro resp metaFetch priceOf cache signature trackedAddr tx hfetch h6 hmints
    rw [analyzeSignature_of_ok resp metaFetch priceOf cache signature trackedAddr tx hfetch]
    unfold analyzeBody
    by_cases hf : shouldFilter tx trackedAddr
    · exact ⟨"", by rw [if_pos hf]⟩
    · rw [if_neg hf]
      have hcond : ∀ p ∈ splDeltas tx trackedAddr,
          (((ensureMetadataIsCached cache metaFetch tx).1) p.1).isSome ∨ 4 ≤ p.1.length := by
        intro p hp
        left
        have hpk : p ∈ tokenDeltas tx trackedAddr := List.mem_of_mem_filter hp
        obtain ⟨tt, htt, hmint⟩ := tokenDeltas_keys tx trackedAddr p hpk
        have hne : tt.mint ≠ "" := hmints tt htt
        apply ensure_covers
        unfold txMints
        apply List.mem_append_left
        exact List.mem_filterMap.mpr ⟨tt, htt, by rw [if_pos hne, hmint]⟩
      have hcls := classifyStep_isSome ((ensureMetadataIsCached cache metaFetch tx).1)
        priceOf tx trackedAddr hcond
      obtain ⟨pr, hpr⟩ := Option.isSome_iff_exists.mp hcls
      have hbs : (buildSummary tx pr.2 pr.1.1 pr.1.2).isSome :=
        (buildSummary_isSome_iff tx pr.2 pr.1.1 pr.1.2).mpr h6
      obtain ⟨sum, hsum⟩ := Option.isSome_iff_exists.mp hbs
      refine ⟨sum, ?_⟩
      rw [hpr]
      simp [hsum]

/-- Claim C3, witness: an HTTP 500 enrichment response yields a fetch error;
the same dust transaction served with HTTP 200 analyses to `nil` error with
the empty (filtered) summary. -/
theorem claim_C3_witness :
    (∃ e, analyzeSignature resp500 (fun _ => none) (fun _ => none) newMetadataCache
      "sig" "w" = some (Except.error e)) ∧
    analyzeSignature respDust (fun _ => none) (fun _ => none) newMetadataCache
      "sig" "w" = some (Except.ok "") :=
  ⟨(claim_C3.1 resp500 (fun _ => none) (fun _ => none) newMetadataCache "sig" "w").mpr
      (Or.inr (Or.inl (by decide))),
    claim_C3.2.2.1 respDust (fun _ => none) (fun _ => none) newMetadataCache "sig" "w"
      txDust rfl (by with_unfolding_all decide)⟩

/-! ## Claim C5: the number-formatting layer.  First, digit lemmas. -/

theorem natDigitsAux_eq_spec :
    ∀ (fuel n : ℕ) (acc : List Char), n < 10 ^ fuel → 1 ≤ fuel →
      natDigitsAux fuel n acc = natDigitsSpec n ++ acc := by
  intro fuel
  induction fuel with
  | zero => intro n acc _ h1; cases h1
  | succ fuel ih =>
    intro n acc hlt _
    by_cases h10 : n < 10
    · rw [natDigitsAux, if_pos h10]
      conv_rhs => rw [natDigitsSpec]
      rw [if_pos h10]
      rfl
    · have hfuel : 1 ≤ fuel := by
        by_contra hc
        have hf0 : fuel = 0 := by omega
        subst hf0
        norm_num at hlt
        omega
      have hdiv : n / 10 < 10 ^ fuel := by
        rw [Nat.div_lt_iff_lt_mul (by norm_num)]
        calc n < 10 ^ (fuel + 1) := hlt
        _ = 10 ^ fuel * 10 := by ring
      rw [natDigitsAux, if_neg h10, ih (n / 10) _ hdiv hfuel]
      conv_rhs => rw [natDigitsSpec]
      rw [if_neg h10]
      simp

theorem natDigits_eq_spec (n : ℕ) : natDigits n = natDigitsSpec n := by
  have h : n < 10 ^ (n + 1) := by
    calc n < 10 ^ n := Nat.lt_pow_self (by norm_num) n
    _ ≤ 10 ^ (n + 1) := Nat.pow_le_pow_right (by norm_num) (Nat.le_succ n)
  rw [natDigits, natDigitsAux_eq_spec (n + 1) n [] h (by omega), List.append_nil]

theorem natDigitsSpec_ne_nil (n : ℕ) : natDigitsSpec n ≠ [] := by
  rw [natDigitsSpec]
  by_cases h : n < 10 <;> simp [h]

theorem mem_natDigitsSpec (n : ℕ) : ∀ c ∈ natDigitsSpec n, ∃ d, d ≤ 9 ∧ c = digitChar d := by
  induction n using Nat.strong_induction_on with
  | _ n ih =>
    intro c hc
    rw [natDigitsSpec] at hc
    by_cases h : n < 10
    · rw [if_pos h] at hc
      simp only [List.mem_singleton] at hc
      exact ⟨n, by omega, hc⟩
    · rw [if_neg h] at hc
      rcases List.mem_append.mp hc with hc | hc
      · exact ih (n / 10) (Nat.div_lt_self (by omega) (by omega)) c hc
      · simp only [List.mem_singleton] at hc
        exact ⟨n % 10, by omega, hc⟩

theorem natDigitsSpec_head (n : ℕ) (hn : 1 ≤ n) :
    ∃ d ds, natDigitsSpec n = digitChar d :: ds ∧ 1 ≤ d ∧ d ≤ 9 := by
  induction n using Nat.strong_induction_on with
  | _ n ih =>
    rw [natDigitsSpec]
    by_cases h : n < 10
    · rw [if_pos h]
      exact ⟨n, [], rfl, hn, by omega⟩
    · rw [if_neg h]
      obtain ⟨d, ds, hds, hd1, hd9⟩ :=
        ih (n / 10) (Nat.div_lt_self (by omega) (by omega)) (by
          have : 10 ≤ n := by omega
          have h2 : 10 / 10 ≤ n / 10 := Nat.div_le_div_right this
          simpa using h2)
      exact ⟨d, ds ++ [digitChar (n % 10)], by rw [hds]; rfl, hd1, hd9⟩

theorem natDigitsSpec_length_le (k : ℕ) :
    ∀ n : ℕ, n < 10 ^ k → 1 ≤ k → (natDigitsSpec n).length ≤ k := by
  induction k with
  | zero => intro n _ h1; cases h1
  | succ k ih =>
    intro n hlt _
    rw [natDigitsSpec]
    by_cases h : n < 10
    · rw [if_pos h]
      simp only [List.length_singleton]
      omega
    · have hk : 1 ≤ k := by
        by_contra hc
        have hk0 : k = 0 := by omega
        subst hk0
        norm_num at hlt
        omega
      have hdiv : n / 10 < 10 ^ k := by
        rw [Nat.div_lt_iff_lt_mul (by norm_num)]
        calc n < 10 ^ (k + 1) := hlt
        _ = 10 ^ k * 10 := by ring
      rw [if_neg h]
      rw [List.length_append, List.length_singleton]
      have := ih (n / 10) hdiv hk
      omega

theorem natDigitsSpec_length_ge (k : ℕ) :
    ∀ n : ℕ, 10 ^ k ≤ n → k + 1 ≤ (natDigitsSpec n).length := by
  induction k with
  | zero =>
    intro n _
    have := natDigitsSpec_ne_nil n
    cases hs : natDigitsSpec n with
    | nil => exact absurd hs this
    | cons a t => simp
  | succ k ih =>
    intro n hge
    have h10 : ¬ n < 10 := by
      intro hc
      have : (10 : ℕ) ^ (k + 1) ≥ 10 := by
        calc (10 : ℕ) = 10 ^ 1 := (pow_one 10).symm
        _ ≤ 10 ^ (k + 1) := Nat.pow_le_pow_right (by norm_num) (by omega)
      omega
    rw [natDigitsSpec, if_neg h10, List.length_append, List.length_singleton]
    have hdiv : 10 ^ k ≤ n / 10 := by
      rw [Nat.le_div_iff_mul_le (by norm_num)]
      calc 10 ^ k * 10 = 10 ^ (k + 1) := by ring
      _ ≤ n := hge
    have := ih (n / 10) hdiv
    omega

theorem digitChar_is_digit (d : ℕ) (hd : d ≤ 9) :
    ('0' ≤ digitChar d ∧ digitChar d ≤ '9') ∧ digitChar d ≠ '.' ∧ digitChar d ≠ ','
      ∧ digitChar d ≠ 'e' := by
  interval_cases d <;> refine ⟨⟨by decide, by decide⟩, by decide, by decide, by decide⟩

theorem digitChar_ne_zero (d : ℕ) (h1 : 1 ≤ d) (h9 : d ≤ 9) : digitChar d ≠ '0' := by
  interval_cases d <;> decide

/-- Integer bounds for the round-half-away model. -/
theorem fround_le (q : ℚ) (m : ℤ) (h : q < m) : fround q ≤ m := by
  have : q + 1/2 < (m : ℚ) + 1 := by
    have hm : (m : ℚ) + 1/2 ≤ m + 1 := by norm_num
    linarith
  have := Int.floor_lt.mpr (by push_cast; linarith : q + 1/2 < ((m + 1 : ℤ) : ℚ))
  unfold fround
  omega

theorem le_fround (q : ℚ) (m : ℤ) (h : (m : ℚ) ≤ q) : m ≤ fround q :=
  Int.le_floor.mpr (by linarith)

theorem mem_natDigits (n : ℕ) (c : Char) (hc : c ∈ natDigits n) :
    ∃ d, d ≤ 9 ∧ c = digitChar d := by
  rw [natDigits_eq_spec] at hc
  exact mem_natDigitsSpec n c hc

theorem takeWhile_all_append (p : Char → Bool) (l r : List Char)
    (hl : ∀ c ∈ l, p c = true) :
    List.takeWhile p (l ++ r) = l ++ List.takeWhile p r := by
  induction l with
  | nil => rfl
  | cons a t ih =>
    rw [List.cons_append, List.takeWhile_cons_of_pos (hl a (List.mem_cons_self _ _)),
      ih (fun c hc => hl c (List.mem_cons_of_mem _ hc)), List.cons_append]

theorem dropWhile_all_append (p : Char → Bool) (l r : List Char)
    (hl : ∀ c ∈ l, p c = true) :
    List.dropWhile p (l ++ r) = List.dropWhile p r := by
  induction l with
  | nil => rfl
  | cons a t ih =>
    rw [List.cons_append, List.dropWhile_cons_of_pos (hl a (List.mem_cons_self _ _)),
      ih (fun c hc => hl c (List.mem_cons_of_mem _ hc))]

theorem dropWhile_all (p : Char → Bool) (l : List Char) (hl : ∀ c ∈ l, p c = true) :
    List.dropWhile p l = [] := by
  have := dropWhile_all_append p l [] hl
  simpa using this

theorem takeWhile_all (p : Char → Bool) (l : List Char) (hl : ∀ c ∈ l, p c = true) :
    List.takeWhile p l = l := by
  have := takeWhile_all_append p l [] hl
  simpa using this

theorem mem_commaRev (l : List Char) (c : Char) (hc : c ∈ commaRev l) : c ∈ l ∨ c = ',' := by
  induction l using commaRev.induct with
  | case1 => simp [commaRev] at hc
  | case2 a => rw [commaRev] at hc; exact Or.inl hc
  | case3 a b => rw [commaRev] at hc; exact Or.inl hc
  | case4 a b c' => rw [commaRev] at hc; exact Or.inl hc
  | case5 a b c' d rest ih =>
    rw [commaRev] at hc
    rcases List.mem_cons.mp hc with h | hc
    · exact Or.inl (by rw [h]; simp)
    rcases List.mem_cons.mp hc with h | hc
    · exact Or.inl (by rw [h]; simp)
    rcases List.mem_cons.mp hc with h | hc
    · exact Or.inl (by rw [h]; simp)
    rcases List.mem_cons.mp hc with h | hc
    · exact Or.inr h
    · rcases ih hc with h | h
      · rcases List.mem_cons.mp h with h1 | h1
        · exact Or.inl (by rw [h1]; simp)
        · exact Or.inl (by simp [h1])
      · exact Or.inr h

theorem commaRev_filter (l : List Char) (hl : ',' ∉ l) :
    (commaRev l).filter (fun c => c != ',') = l := by
  induction l using commaRev.induct with
  | case1 => rfl
  | case2 a =>
    rw [commaRev]
    have : a ≠ ',' := fun h => hl (by rw [h]; simp)
    simp [this]
  | case3 a b =>
    rw [commaRev]
    have ha : a ≠ ',' := fun h => hl (by rw [h]; simp)
    have hb : b ≠ ',' := fun h => hl (by rw [h]; simp)
    simp [ha, hb]
  | case4 a b c =>
    rw [commaRev]
    have ha : a ≠ ',' := fun h => hl (by rw [h]; simp)
    have hb : b ≠ ',' := fun h => hl (by rw [h]; simp)
    have hc : c ≠ ',' := fun h => hl (by rw [h]; simp)
    simp [ha, hb, hc]
  | case5 a b c d rest ih =>
    rw [commaRev]
    have ha : a ≠ ',' := fun h => hl (by rw [h]; simp)
    have hb : b ≠ ',' := fun h => hl (by rw [h]; simp)
    have hc : c ≠ ',' := fun h => hl (by rw [h]; simp)
    have hrest : ',' ∉ d :: rest := fun h => hl (by simp [List.mem_cons.mp h])
    simp only [List.filter_cons]
    rw [ih hrest]
    simp [ha, hb, hc]

theorem filter_reverse_eq (p : Char → Bool) (l : List Char) :
    l.reverse.filter p = (l.filter p).reverse := by
  induction l with
  | nil => rfl
  | cons a t ih =>
    rw [List.reverse_cons, List.filter_append, ih, List.filter_cons]
    by_cases h : p a <;> simp [h]

theorem addThousandsSep_filter (l : List Char) (hl : ',' ∉ l) :
    (addThousandsSep l).filter (fun c => c != ',') = l := by
  unfold addThousandsSep
  rw [filter_reverse_eq, commaRev_filter l.reverse (by simpa using hl), List.reverse_reverse]

theorem mem_addThousandsSep (l : List Char) (c : Char) (hc : c ∈ addThousandsSep l) :
    c ∈ l ∨ c = ',' := by
  unfold addThousandsSep at hc
  rw [List.mem_reverse] at hc
  rcases mem_commaRev l.reverse c hc with h | h
  · exact Or.inl (List.mem_reverse.mp h)
  · exact Or.inr h

theorem formatFloatF_two_struct (f : ℚ) (h1 : 1 ≤ f) :
    ∃ I DD, formatFloatF f 2 = I ++ '.' :: DD ∧ DD.length = 2 ∧ I ≠ [] ∧
      (∀ c ∈ I, ∃ d, d ≤ 9 ∧ c = digitChar d) ∧
      (∀ c ∈ DD, ∃ d, d ≤ 9 ∧ c = digitChar d) := by
  have hn : (100 : ℤ) ≤ fround (f * 10 ^ 2) := by
    apply le_fround
    push_cast
    nlinarith
  have hnat : (100 : ℕ) ≤ (fround (f * 10 ^ 2)).toNat := by omega
  have hlen : 3 ≤ (natDigits (fround (f * 10 ^ 2)).toNat).length := by
    rw [natDigits_eq_spec]
    have h100 : (10 : ℕ) ^ 2 = 100 := by norm_num
    have := natDigitsSpec_length_ge 2 (fround (f * 10 ^ 2)).toNat (by rw [h100]; exact hnat)
    omega
  have hpad : leftPad '0' (2 + 1) (natDigits (fround (f * 10 ^ 2)).toNat)
      = natDigits (fround (f * 10 ^ 2)).toNat := by
    unfold leftPad
    rw [Nat.sub_eq_zero_of_le (by omega), List.replicate_zero, List.nil_append]
  refine ⟨(natDigits (fround (f * 10 ^ 2)).toNat).take
      ((natDigits (fround (f * 10 ^ 2)).toNat).length - 2),
    (natDigits (fround (f * 10 ^ 2)).toNat).drop
      ((natDigits (fround (f * 10 ^ 2)).toNat).length - 2), ?_, ?_, ?_, ?_, ?_⟩
  · show formatFloatF f 2 = _
    unfold formatFloatF
    rw [if_neg (by norm_num)]
    rw [hpad]
  · rw [List.length_drop]
    omega
  · intro hnil
    have := congrArg List.length hnil
    rw [List.length_take] at this
    simp only [List.length_nil] at this
    omega
  · intro c hc
    exact mem_natDigits _ c (List.take_subset _ _ hc)
  · intro c hc
    exact mem_natDigits _ c (List.drop_subset _ _ hc)

theorem digits_pred_dot (l : List Char) (hl : ∀ c ∈ l, ∃ d, d ≤ 9 ∧ c = digitChar d) :
    ∀ c ∈ l, (decide ¬(c = '.')) = true := by
  intro c hc
  obtain ⟨d, hd9, rfl⟩ := hl c hc
  exact decide_eq_true (digitChar_is_digit d hd9).2.1

theorem fhr_ge1000_structure (f : ℚ) (h : 1000 ≤ f) :
    formatHumanReadableL f = formatFloatF f 0 ∨
    formatHumanReadableL f = addThousandsSep (formatFloatF f 0) ++ [] := by
  have h1 : (1 : ℚ) ≤ f := by linarith
  have hdig : ∀ c ∈ formatFloatF f 0, ∃ d, d ≤ 9 ∧ c = digitChar d := by
    intro c hc
    unfold formatFloatF at hc
    rw [if_pos rfl] at hc
    exact mem_natDigits _ c hc
  unfold formatHumanReadableL
  rw [if_pos h1]
  simp only [if_pos h]
  rw [takeWhile_all _ _ (digits_pred_dot _ hdig), dropWhile_all _ _ (digits_pred_dot _ hdig)]
  by_cases hlen : (formatFloatF f 0).length ≤ 3
  · rw [if_pos hlen]
    exact Or.inl rfl
  · rw [if_neg hlen]
    exact Or.inr rfl

theorem fhr_1_1000_structure (f : ℚ) (h1 : 1 ≤ f) (h2 : f < 1000) :
    ∃ I DD, formatHumanReadableL f = I ++ '.' :: DD ∧ DD.length = 2 ∧
      (∀ c ∈ I, (∃ d, d ≤ 9 ∧ c = digitChar d) ∨ c = ',') ∧
      (∀ c ∈ DD, ∃ d, d ≤ 9 ∧ c = digitChar d) ∧
      I.filter (fun c => c != ',') ++ '.' :: DD = formatFloatF f 2 := by
  have hnle : ¬ (1000 : ℚ) ≤ f := by linarith
  obtain ⟨I, DD, hs, hDD, hInil, hIdig, hDDdig⟩ := formatFloatF_two_struct f h1
  have hIpred := digits_pred_dot I hIdig
  have hdotfalse : ¬ (decide ¬(('.' : Char) = '.')) = true := by decide
  unfold formatHumanReadableL
  rw [if_pos h1]
  simp only [if_neg hnle]
  have htw : List.takeWhile (fun c => decide ¬(c = '.')) ('.' :: DD) = [] :=
    List.takeWhile_cons_of_neg hdotfalse
  have hdw : List.dropWhile (fun c => decide ¬(c = '.')) ('.' :: DD) = '.' :: DD :=
    List.dropWhile_cons_of_neg hdotfalse
  rw [hs, takeWhile_all_append _ I ('.' :: DD) hIpred, htw, List.append_nil,
    dropWhile_all_append _ I ('.' :: DD) hIpred, hdw]
  have hIfil : I.filter (fun c => c != ',') = I := by
    rw [List.filter_eq_self]
    intro c hc
    obtain ⟨d, hd9, rfl⟩ := hIdig c hc
    exact bne_iff_ne.mpr (digitChar_is_digit d hd9).2.2.1
  by_cases hlen : I.length ≤ 3
  · rw [if_pos hlen]
    exact ⟨I, DD, rfl, hDD, fun c hc => Or.inl (hIdig c hc), hDDdig, by rw [hIfil]⟩
  · rw [if_neg hlen]
    refine ⟨addThousandsSep I, DD, rfl, hDD, ?_, hDDdig, ?_⟩
    · intro c hc
      rcases mem_addThousandsSep I c hc with h | h
      · exact Or.inl (hIdig c h)
      · exact Or.inr h
    · rw [addThousandsSep_filter I (fun hmem => by
        obtain ⟨d, hd9, hd⟩ := hIdig ',' hmem
        exact (digitChar_is_digit d hd9).2.2.1 hd.symm)]

/-- The f ≥ 1 output with commas erased is exactly the fixed-precision
rendition. -/
theorem fhr_ge1_filter (f : ℚ) (h1 : 1 ≤ f) :
    (formatHumanReadableL f).filter (fun c => c != ',')
      = formatFloatF f (if 1000 ≤ f then 0 else 2) := by
  by_cases h : 1000 ≤ f
  · rw [if_pos h]
    have hdig : ∀ c ∈ formatFloatF f 0, ∃ d, d ≤ 9 ∧ c = digitChar d := by
      intro c hc
      unfold formatFloatF at hc
      rw [if_pos rfl] at hc
      exact mem_natDigits _ c hc
    have hnocomma : (',' : Char) ∉ formatFloatF f 0 := fun hmem => by
      obtain ⟨d, hd9, hd⟩ := hdig ',' hmem
      exact (digitChar_is_digit d hd9).2.2.1 hd.symm
    rcases fhr_ge1000_structure f h with hst | hst <;> rw [hst]
    · rw [List.filter_eq_self]
      intro c hc
      obtain ⟨d, hd9, rfl⟩ := hdig c hc
      exact bne_iff_ne.mpr (digitChar_is_digit d hd9).2.2.1
    · rw [List.append_nil, addThousandsSep_filter _ hnocomma]
  · rw [if_neg h]
    have h2 : f < 1000 := by linarith
    obtain ⟨I, DD, hst, hDD, hImem, hDDdig, hfil⟩ := fhr_1_1000_structure f h1 h2
    rw [hst, List.filter_append]
    rw [← hfil]
    congr 1
    rw [List.filter_cons]
    have : (('.' : Char) != ',') = true := by decide
    rw [if_pos this]
    congr 1
    rw [List.filter_eq_self]
    intro c hc
    obtain ⟨d, hd9, rfl⟩ := hDDdig c hc
    exact bne_iff_ne.mpr (digitChar_is_digit d hd9).2.2.1

theorem expDownAux_correct (q : ℚ) :
    ∀ (fuel k : ℕ), (∃ j, j ≤ fuel ∧ 1 ≤ q * 10 ^ (k + j)) →
      (1 ≤ q * 10 ^ expDownAux q k fuel ∧ k ≤ expDownAux q k fuel ∧
        ∀ i, k ≤ i → i < expDownAux q k fuel → q * 10 ^ i < 1) := by
  intro fuel
  induction fuel with
  | zero =>
    rintro k ⟨j, hj, hq⟩
    have hj0 : j = 0 := by omega
    subst hj0
    rw [expDownAux]
    exact ⟨by simpa using hq, le_refl k, fun i h1 h2 => absurd h1 (by omega)⟩
  | succ fuel ih =>
    rintro k ⟨j, hj, hq⟩
    rw [expDownAux]
    by_cases hbase : 1 ≤ q * 10 ^ k
    · rw [if_pos hbase]
      exact ⟨hbase, le_refl k, fun i h1 h2 => absurd h1 (by omega)⟩
    · rw [if_neg hbase]
      have hex : ∃ j', j' ≤ fuel ∧ 1 ≤ q * 10 ^ (k + 1 + j') := by
        rcases Nat.eq_zero_or_pos j with hj0 | hjpos
        · subst hj0
          rw [Nat.add_zero] at hq
          exact absurd hq hbase
        · exact ⟨j - 1, by omega, by rw [show k + 1 + (j - 1) = k + j by omega]; exact hq⟩
      obtain ⟨h1, h2, h3⟩ := ih (k + 1) hex
      refine ⟨h1, by omega, ?_⟩
      intro i hki hir
      rcases Nat.lt_or_ge i (k + 1) with hik | hik
      · have hik' : i = k := by omega
        subst hik'
        exact lt_of_not_le hbase
      · exact h3 i hik hir

theorem exp_fuel_sufficient (q : ℚ) (hq : 0 < q) : ∃ j, j ≤ q.den ∧ 1 ≤ q * 10 ^ (0 + j) := by
  refine ⟨q.den, le_refl _, ?_⟩
  rw [Nat.zero_add]
  have hnum : (1 : ℚ) ≤ (q.num : ℚ) := by
    have := Rat.num_pos.mpr hq
    exact_mod_cast this
  have hden : (0 : ℚ) < (q.den : ℚ) := by
    exact_mod_cast q.den_pos
  have hq1 : 1 / (q.den : ℚ) ≤ q := by
    rw [div_le_iff hden, Rat.mul_den_eq_num]
    exact hnum
  have hpow : (q.den : ℚ) ≤ 10 ^ q.den := by
    have h := Nat.lt_pow_self (by norm_num : 1 < 10) q.den
    have h' : (q.den : ℚ) < ((10 ^ q.den : ℕ) : ℚ) := by exact_mod_cast h
    push_cast at h'
    linarith
  calc (1 : ℚ) = (1 / q.den) * q.den := by field_simp
  _ ≤ q * 10 ^ q.den :=
    mul_le_mul hq1 hpow (le_of_lt hden) (le_of_lt hq)

theorem decExp_lt_one (q : ℚ) (h0 : 0 < q) (h1 : q < 1) :
    (10 : ℚ) ^ decExp q ≤ q ∧ q < 10 ^ (decExp q + 1) ∧ decExp q ≤ -1 := by
  have hnle : ¬ (1 : ℚ) ≤ q := by linarith
  obtain ⟨hfound, -, hmin⟩ := expDownAux_correct q q.den 0 (exp_fuel_sufficient q h0)
  have hde : decExp q = -(expDownAux q 0 q.den : ℤ) := by
    unfold decExp
    rw [if_neg hnle]
  have hrpos : 1 ≤ expDownAux q 0 q.den := by
    by_contra hc
    have hr0 : expDownAux q 0 q.den = 0 := by omega
    rw [hr0] at hfound
    simp at hfound
    linarith
  have h10r : (0 : ℚ) < 10 ^ expDownAux q 0 q.den := by positivity
  refine ⟨?_, ?_, ?_⟩
  · have hdiv : (1 : ℚ) / 10 ^ expDownAux q 0 q.den ≤ q :=
      (div_le_iff h10r).mpr (by linarith [hfound])
    rw [hde, zpow_neg, zpow_natCast, ← one_div]
    exact hdiv
  · have hlt : q * 10 ^ (expDownAux q 0 q.den - 1) < 1 :=
      hmin (expDownAux q 0 q.den - 1) (by omega) (by omega)
    have hpos' : (0 : ℚ) < 10 ^ (expDownAux q 0 q.den - 1) := by positivity
    have hq' : q < 1 / 10 ^ (expDownAux q 0 q.den - 1) := (lt_div_iff hpos').mpr hlt
    have hcast : -(expDownAux q 0 q.den : ℤ) + 1 = -((expDownAux q 0 q.den - 1 : ℕ) : ℤ) := by
      have hsub : ((expDownAux q 0 q.den - 1 : ℕ) : ℤ)
          = (expDownAux q 0 q.den : ℤ) - ((1 : ℕ) : ℤ) := Nat.cast_sub hrpos
      omega
    rw [hde, hcast, zpow_neg, zpow_natCast, ← one_div]
    exact hq'
  · rw [hde]
    omega

theorem stripZeros_length_le (l : List Char) : (stripZerosRight l).length ≤ l.length := by
  unfold stripZerosRight
  rw [List.length_reverse]
  have hsub : (List.dropWhile (fun x => decide (x = '0')) l.reverse).Sublist l.reverse :=
    List.dropWhile_sublist _
  have := hsub.length_le
  rw [List.length_reverse] at this
  exact this

theorem stripZeros_subset (l : List Char) : ∀ c ∈ stripZerosRight l, c ∈ l := by
  intro c hc
  unfold stripZerosRight at hc
  rw [List.mem_reverse] at hc
  have hsub : (List.dropWhile (fun x => decide (x = '0')) l.reverse).Sublist l.reverse :=
    List.dropWhile_sublist _
  exact List.mem_reverse.mp (hsub.subset hc)

theorem stripZeros_cons_head (d : Char) (t : List Char) (hd : d ≠ '0') :
    ∃ t', stripZerosRight (d :: t) = d :: t' := by
  unfold stripZerosRight
  rw [List.reverse_cons, List.dropWhile_append]
  by_cases he : (List.dropWhile (fun x => decide (x = '0')) t.reverse).isEmpty
  · rw [if_pos he]
    rw [List.dropWhile_cons_of_neg (by simpa using hd)]
    exact ⟨[], rfl⟩
  · rw [if_neg he]
    rw [List.reverse_append]
    exact ⟨(List.dropWhile (fun x => decide (x = '0')) t.reverse).reverse, rfl⟩

theorem dropWhile_zero_replicate (z : ℕ) (r : List Char) :
    List.dropWhile (fun c => c == '0') (List.replicate z '0' ++ r)
      = List.dropWhile (fun c => c == '0') r := by
  induction z with
  | zero => rfl
  | succ z ih =>
    rw [List.replicate_succ, List.cons_append, List.dropWhile_cons_of_pos (by decide)]
    exact ih

theorem digitChar_range_bool (d : ℕ) (hd : d ≤ 9) :
    ('0' ≤ digitChar d && digitChar d ≤ '9') = true := by
  interval_cases d <;> decide

theorem filter_digits_all (l : List Char) (hl : ∀ c ∈ l, ∃ d, d ≤ 9 ∧ c = digitChar d) :
    l.filter (fun c => '0' ≤ c && c ≤ '9') = l := by
  rw [List.filter_eq_self]
  intro c hc
  obtain ⟨d, hd9, rfl⟩ := hl c hc
  exact digitChar_range_bool d hd9

theorem digits_pred_ne_e (l : List Char) (hl : ∀ c ∈ l, ∃ d, d ≤ 9 ∧ c = digitChar d) :
    ∀ c ∈ l, (c != 'e') = true := by
  intro c hc
  obtain ⟨d, hd9, rfl⟩ := hl c hc
  exact bne_iff_ne.mpr (digitChar_is_digit d hd9).2.2.2

/-- The rounded significand of `q < 1` at three significant digits lies in
`[100, 1000]`. -/
theorem m0_bounds (q : ℚ) (h0 : 0 < q) (h1 : q < 1) :
    100 ≤ fround (q * 10 ^ ((3 : ℤ) - 1 - decExp q)) ∧
    fround (q * 10 ^ ((3 : ℤ) - 1 - decExp q)) ≤ 1000 := by
  obtain ⟨hle, hlt, hneg⟩ := decExp_lt_one q h0 h1
  have h10 : (10 : ℚ) ≠ 0 := by norm_num
  have hpospow : (0 : ℚ) < 10 ^ ((3 : ℤ) - 1 - decExp q) := by positivity
  constructor
  · apply le_fround
    have heq : (10 : ℚ) ^ decExp q * 10 ^ ((3 : ℤ) - 1 - decExp q) = 10 ^ ((2 : ℤ)) := by
      rw [← zpow_add₀ h10]
      congr 1
      ring
    have h100 : ((100 : ℤ) : ℚ) = 10 ^ ((2 : ℤ)) := by norm_num
    rw [h100, ← heq]
    exact mul_le_mul_of_nonneg_right hle (le_of_lt hpospow)
  · apply fround_le
    have heq : (10 : ℚ) ^ (decExp q + 1) * 10 ^ ((3 : ℤ) - 1 - decExp q) = 10 ^ ((3 : ℤ)) := by
      rw [← zpow_add₀ h10]
      congr 1
      ring
    have h1000 : ((1000 : ℤ) : ℚ) = 10 ^ ((3 : ℤ)) := by norm_num
    rw [h1000, ← heq]
    exact mul_lt_mul_of_pos_right hlt hpospow

theorem sigCount_eq_of_split (X rest : List Char) (hX : ∀ c ∈ X, (c != 'e') = true)
    (hrest : rest = [] ∨ ∃ b, rest = 'e' :: b) :
    sigDigitCount (X ++ rest) = sigDigitCount X := by
  unfold sigDigitCount
  rw [takeWhile_all_append _ X rest hX, takeWhile_all _ X hX]
  rcases hrest with h | ⟨b, h⟩ <;> subst h
  · rw [List.takeWhile_nil, List.append_nil]
  · rw [List.takeWhile_cons_of_neg (by decide), List.append_nil]

theorem sigCount_head_frac (dh : ℕ) (h1 : 1 ≤ dh) (h9 : dh ≤ 9) (frac : List Char)
    (hfr : ∀ c ∈ frac, ∃ d, d ≤ 9 ∧ c = digitChar d) :
    sigDigitCount ([digitChar dh] ++ (if frac.isEmpty then [] else '.' :: frac))
      = 1 + frac.length := by
  have hdh0 : (digitChar dh == '0') = false :=
    beq_eq_false_iff_ne.mpr (digitChar_ne_zero dh h1 h9)
  have hX : ∀ c ∈ [digitChar dh] ++ (if frac.isEmpty then [] else '.' :: frac),
      (c != 'e') = true := by
    intro c hc
    rcases List.mem_append.mp hc with h | h
    · rw [List.mem_singleton] at h
      subst h
      exact bne_iff_ne.mpr (digitChar_is_digit dh (by omega)).2.2.2
    · by_cases hfe : frac.isEmpty
      · rw [if_pos hfe] at h
        cases h
      · rw [if_neg hfe] at h
        rcases List.mem_cons.mp h with h | h
        · subst h; decide
        · exact digits_pred_ne_e frac hfr c h
  unfold sigDigitCount
  rw [takeWhile_all _ _ hX, List.filter_append]
  have hfil1 : List.filter (fun c => '0' ≤ c && c ≤ '9') [digitChar dh] = [digitChar dh] :=
    filter_digits_all _ (fun c hc => by
      rw [List.mem_singleton] at hc
      exact ⟨dh, by omega, hc⟩)
  rw [hfil1]
  by_cases hfe : frac.isEmpty
  · rw [if_pos hfe]
    have hfrnil : frac = [] := List.isEmpty_iff.mp hfe
    rw [List.filter_nil, List.append_nil, List.dropWhile_cons_of_neg (by simp [hdh0]),
      hfrnil]
    rfl
  · rw [if_neg hfe, List.filter_cons]
    rw [if_neg (by decide)]
    rw [filter_digits_all frac hfr]
    rw [List.singleton_append, List.dropWhile_cons_of_neg (by simp [hdh0])]
    rw [List.length_cons]
    omega

/-- The significant-digit count of the `'g'` rendering of a 3-digit
significand at a nonpositive exponent is between 1 and 3. -/
theorem sigCount_render (m e : ℤ) (h100 : 100 ≤ m) (h999 : m ≤ 999) (he : e ≤ 0) :
    1 ≤ sigDigitCount (formatGRender m e 3) ∧ sigDigitCount (formatGRender m e 3) ≤ 3 := by
  have hton1 : (100 : ℕ) ≤ m.toNat := by omega
  have hton2 : m.toNat ≤ 999 := by omega
  have hlen3 : (natDigits m.toNat).length = 3 := by
    rw [natDigits_eq_spec]
    have hp3 : (10 : ℕ) ^ 3 = 1000 := by norm_num
    have hp2 : (10 : ℕ) ^ 2 = 100 := by norm_num
    have hle := natDigitsSpec_length_le 3 m.toNat (by omega) (by norm_num)
    have hge := natDigitsSpec_length_ge 2 m.toNat (by omega)
    omega
  obtain ⟨dh, tl, hds, hdh1, hdh9⟩ := natDigitsSpec_head m.toNat (by omega)
  have hds' : natDigits m.toNat = digitChar dh :: tl := by
    rw [natDigits_eq_spec]; exact hds
  have htl2 : tl.length = 2 := by
    rw [hds'] at hlen3
    simpa using hlen3
  have htl_dig : ∀ c ∈ tl, ∃ d, d ≤ 9 ∧ c = digitChar d := fun c hc =>
    mem_natDigits m.toNat c (by rw [hds']; exact List.mem_cons_of_mem _ hc)
  have hdh0 : digitChar dh ≠ '0' := digitChar_ne_zero dh hdh1 hdh9
  have hstrip_tl_dig : ∀ c ∈ stripZerosRight tl, ∃ d, d ≤ 9 ∧ c = digitChar d :=
    fun c hc => htl_dig c (stripZeros_subset tl c hc)
  have hstrip_tl_len : (stripZerosRight tl).length ≤ 2 := by
    have := stripZeros_length_le tl
    omega
  unfold formatGRender
  rw [hds']
  simp only [List.take_succ_cons, List.take_zero, List.drop_succ_cons, List.drop_zero]
  by_cases hcase : e < -4
  · rw [if_pos (Or.inl hcase)]
    rw [sigCount_eq_of_split _ _ ?hX (Or.inr ⟨expChars e, rfl⟩)]
    case hX =>
      intro c hc
      rcases List.mem_append.mp hc with h | h
      · rcases List.mem_cons.mp h with h | h
        · subst h
          exact bne_iff_ne.mpr (digitChar_is_digit dh (by omega)).2.2.2
        · cases h
      · by_cases hfe : (stripZerosRight tl).isEmpty
        · rw [if_pos hfe] at h
          cases h
        · rw [if_neg hfe] at h
          rcases List.mem_cons.mp h with h | h
          · subst h; decide
          · exact digits_pred_ne_e _ hstrip_tl_dig c h
    rw [sigCount_head_frac dh hdh1 hdh9 (stripZerosRight tl) hstrip_tl_dig]
    omega
  · rw [if_neg (by
      push_neg
      constructor
      · omega
      · omega)]
    by_cases hzero : (0 : ℤ) ≤ e
    · have he0 : e = 0 := le_antisymm he hzero
      subst he0
      rw [if_pos (le_refl (0 : ℤ))]
      simp only [Int.toNat_zero, Nat.zero_add, List.take_succ_cons, List.take_zero,
        List.drop_succ_cons, List.drop_zero]
      rw [sigCount_head_frac dh hdh1 hdh9 (stripZerosRight tl) hstrip_tl_dig]
      omega
    · rw [if_neg hzero]
      obtain ⟨t', hstrip⟩ := stripZeros_cons_head (digitChar dh) tl hdh0
      have hstrip_len : (stripZerosRight (digitChar dh :: tl)).length ≤ 3 := by
        have := stripZeros_length_le (digitChar dh :: tl)
        rw [List.length_cons] at this
        omega
      have hstrip_dig : ∀ c ∈ stripZerosRight (digitChar dh :: tl),
          ∃ d, d ≤ 9 ∧ c = digitChar d := fun c hc => by
        have := stripZeros_subset _ c hc
        rcases List.mem_cons.mp this with h | h
        · exact ⟨dh, by omega, h⟩
        · exact htl_dig c h
      have hX : ∀ c ∈ ('0' :: '.' ::
          (List.replicate ((-e).toNat - 1) '0' ++ stripZerosRight (digitChar dh :: tl))),
          (c != 'e') = true := by
        intro c hc
        rcases List.mem_cons.mp hc with h | hc
        · subst h; decide
        rcases List.mem_cons.mp hc with h | hc
        · subst h; decide
        rcases List.mem_append.mp hc with h | h
        · rw [List.eq_of_mem_replicate h]; decide
        · exact digits_pred_ne_e _ hstrip_dig c h
      unfold sigDigitCount
      rw [takeWhile_all _ _ hX]
      rw [List.filter_cons, if_pos (by decide), List.filter_cons, if_neg (by decide)]
      have hfilrep : List.filter (fun c => '0' ≤ c && c ≤ '9')
          (List.replicate ((-e).toNat - 1) '0' ++ stripZerosRight (digitChar dh :: tl))
          = List.replicate ((-e).toNat - 1) '0' ++ stripZerosRight (digitChar dh :: tl) := by
        apply filter_digits_all
        intro c hc
        rcases List.mem_append.mp hc with h | h
        · exact ⟨0, by omega, List.eq_of_mem_replicate h⟩
        · exact hstrip_dig c h
      rw [hfilrep]
      rw [List.dropWhile_cons_of_pos (by decide), dropWhile_zero_replicate]
      rw [hstrip, List.dropWhile_cons_of_neg (by simp [beq_eq_false_iff_ne.mpr hdh0])]
      rw [hstrip] at hstrip_len
      rw [List.length_cons] at hstrip_len ⊢
      omega

theorem formatFloatGPos_sig (q : ℚ) (h0 : 0 < q) (h1 : q < 1) :
    1 ≤ sigDigitCount (formatFloatGPos q 3) ∧ sigDigitCount (formatFloatGPos q 3) ≤ 3 := by
  obtain ⟨hm100, hm1000⟩ := m0_bounds q h0 h1
  obtain ⟨-, -, hneg⟩ := decExp_lt_one q h0 h1
  have hc3 : (((3 : ℕ)) : ℤ) = (3 : ℤ) := by norm_num
  have hp3 : (10 : ℤ) ^ (3 : ℕ) = 1000 := by norm_num
  have hp2 : (10 : ℤ) ^ (3 - 1 : ℕ) = 100 := by norm_num
  unfold formatFloatGPos
  rw [hc3]
  by_cases hbump : fround (q * 10 ^ ((3 : ℤ) - 1 - decExp q)) = 10 ^ (3 : ℕ)
  · rw [if_pos hbump, hp2]
    exact sigCount_render 100 (decExp q + 1) (by omega) (by omega) (by omega)
  · rw [if_neg hbump]
    rw [hp3] at hbump
    exact sigCount_render _ (decExp q) hm100 (by omega) (by omega)

theorem fhr_lt_one_sig (f : ℚ) (h0 : 0 < f) (h1 : f < 1) :
    1 ≤ sigDigitCount (formatHumanReadableL f) ∧
      sigDigitCount (formatHumanReadableL f) ≤ 3 := by
  have hn1 : ¬ (1 : ℚ) ≤ f := by linarith
  unfold formatHumanReadableL
  rw [if_neg hn1]
  unfold formatFloatG
  rw [if_neg (by linarith : ¬ f = 0), if_neg (by linarith : ¬ f < 0)]
  exact formatFloatGPos_sig f h0 h1

/-- Claim C5: the rendering rules of `formatHumanReadable`.  The three
examples of the claim evaluate as stated; magnitudes ≥ 1000 are rendered
with no fractional digits, magnitudes in `[1, 1000)` with exactly two
fractional digits, and magnitudes in `(0, 1)` with (at most, after Go's
trailing-zero removal; at least one) three significant figures; for every
value ≥ 1 the thousands separators are the only deviation from the plain
fixed-precision digit string, so the integer part is the comma-grouped
digit string. -/
theorem claim_C5 :
    formatHumanReadable (15004/10) = "1,500" ∧
    formatHumanReadable (12345/1000) = "12.35" ∧
    formatHumanReadable (4321/10000000) = "0.000432" ∧
    (∀ f : ℚ, 1000 ≤ f → '.' ∉ formatHumanReadableL f) ∧
    (∀ f : ℚ, 1 ≤ f → f < 1000 → ∃ I DD, formatHumanReadableL f = I ++ '.' :: DD ∧
      DD.length = 2 ∧ '.' ∉ I) ∧
    (∀ f : ℚ, 1 ≤ f → (formatHumanReadableL f).filter (fun c => c != ',')
      = formatFloatF f (if 1000 ≤ f then 0 else 2)) ∧
    (∀ f : ℚ, 0 < f → f < 1 → 1 ≤ sigDigitCount (formatHumanReadableL f) ∧
      sigDigitCount (formatHumanReadableL f) ≤ 3) := by
  refine ⟨by with_unfolding_all decide, by with_unfolding_all decide,
    by with_unfolding_all decide, ?_, ?_, fhr_ge1_filter, fhr_lt_one_sig⟩
  · intro f hf hdot
    rcases fhr_ge1000_structure f hf with hst | hst <;> rw [hst] at hdot
    · unfold formatFloatF at hdot
      rw [if_pos rfl] at hdot
      obtain ⟨d, hd9, hd⟩ := mem_natDigits _ '.' hdot
      exact (digitChar_is_digit d hd9).2.1 hd.symm
    · rw [List.append_nil] at hdot
      rcases mem_addThousandsSep _ '.' hdot with h | h
      · unfold formatFloatF at h
        rw [if_pos rfl] at h
        obtain ⟨d, hd9, hd⟩ := mem_natDigits _ '.' h
        exact (digitChar_is_digit d hd9).2.1 hd.symm
      · exact absurd h (by decide)
  · intro f hf1 hf2
    obtain ⟨I, DD, hst, hDD, hImem, hDDdig, -⟩ := fhr_1_1000_structure f hf1 hf2
    refine ⟨I, DD, hst, hDD, ?_⟩
    intro hdot
    rcases hImem '.' hdot with ⟨d, hd9, hd⟩ | h
    · exact (digitChar_is_digit d hd9).2.1 hd.symm
    · exact absurd h (by decide)

/-- Claim C5, witness: instantiating the general clauses: 2500.5 carries no
fractional digits, 42.1 has exactly two, and 1/16 displays at most three
significant figures. -/
theorem claim_C5_witness :
    ('.' ∉ formatHumanReadableL (25005/10)) ∧
    (∃ I DD, formatHumanReadableL (421/10) = I ++ '.' :: DD ∧ DD.length = 2 ∧ '.' ∉ I) ∧
    (1 ≤ sigDigitCount (formatHumanReadableL (1/16)) ∧
      sigDigitCount (formatHumanReadableL (1/16)) ≤ 3) :=
  ⟨claim_C5.2.2.2.1 (25005/10) (by norm_num),
    claim_C5.2.2.2.2.1 (421/10) (by norm_num) (by norm_num),
    claim_C5.2.2.2.2.2.2 (1/16) (by norm_num) (by norm_num)⟩

end Solwatch
